import Mathlib

/-!
# Verification of the `md2png` layout-and-rasterization engine

Shallow embedding of `src/md2png/__init__.py` (the `ImageTreeprocessor`
tree-walking renderer) and proofs about it.

Modelling conventions:
* Python integers are `Int` (no overflow in CPython).
* The parsed markdown tree (an ElementTree element) is the inductive `Node`
  with tag, leading text, tail text, attributes and children.
* PIL is abstracted: text measurement (`ImageDraw.textsize`) becomes an
  explicit parameter `m : Font → String → Int × Int`; drawing calls
  (`draw.text`, `draw.ellipse`, `draw.line`) and `print` are recorded in an
  event log inside the state; chunk images are represented by their recorded
  used heights (`images : List Int`), which is all the claims observe.
* Python exceptions (attribute access on `None`, indexing an empty list)
  make the step function return `none`: no handler in the source catches
  anything, so an exception aborts the whole render.
* Loops that Python runs unboundedly but that provably advance through a
  list are written with an explicit fuel argument initialised to a bound
  that is always sufficient (the word-wrap outer loop advances
  `start_index` by at least one per iteration, so `parts.length + 1` fuel
  is enough; the tree walk gets caller-chosen fuel bounding the recursion
  depth, and all theorems about it carry a "run succeeded" hypothesis that
  absorbs fuel exhaustion).
* Pixel halvings (`h / 2`, Python float division) are modelled with integer
  division; they only affect decorative coordinates (hr lines, bullet
  ellipses) that no verified claim inspects.
-/

set_option synthInstance.maxSize 1024

/-- A parsed markdown tree node: tag, leading text, tail text after the
subtree, attributes, ordered children (ElementTree shape). -/
inductive Node : Type where
  | mk : String → Option String → Option String → List (String × String) → List Node → Node
deriving Repr

def Node.tag : Node → String
  | .mk t _ _ _ _ => t

def Node.text : Node → Option String
  | .mk _ t _ _ _ => t

def Node.tail : Node → Option String
  | .mk _ _ t _ _ => t

def Node.attrib : Node → List (String × String)
  | .mk _ _ _ a _ => a

def Node.children : Node → List Node
  | .mk _ _ _ _ c => c

/-- The fonts the renderer selects among (`self.default_font`,
`self.bold_font`, ..., `self.italics_font`). Their metrics live in the
abstract measurement function. -/
inductive Font : Type where
  | default | bold | code | h1 | h2 | h3 | h4 | h5 | h6 | italics
deriving DecidableEq, Repr

/-- RGBA color tuple. -/
abbrev Color := Int × Int × Int × Int

/-- A bounding box `(x, y, w, h)` as appended to `blocks` by `render_text`. -/
abbrev Block := Int × Int × Int × Int

/-- Observable side effects: PIL drawing primitives and `print` calls. -/
inductive Event : Type where
  | drawText (x y : Int) (text : String) (font : Font) (color : Color)
  | drawEllipse (x0 y0 x1 y1 : Int) (outline fill : Color)
  | drawLine (x0 y0 x1 y1 : Int) (color : Color)
  | message (s : String)
deriving DecidableEq, Repr

/-- The non-font configuration keys of `ImageTreeprocessor.__init__`
(defaults as in the source); font paths and sizes are absorbed by the
abstract measurement function. -/
structure Config : Type where
  blockquote_indent : Int := 16
  code_indent : Int := 16
  color : Color := (255, 255, 255, 255)
  hr_color : Color := (220, 220, 220, 255)
  hr_padding : Int := 0
  link_color : Color := (100, 100, 255, 255)
  list_indent : Int := 28
  list_item_margin_bottom : Int := 4
  bullet_outdent : Int := 8
  margin_bottom : Int := 16
deriving DecidableEq, Repr

/-- `BULLET_DIAMETER` constant from the source. -/
def BULLET_DIAMETER : Int := 4

/-- `IMAGE_BLOCK_HEIGHT` constant from the source. -/
def IMAGE_BLOCK_HEIGHT : Int := 1000

/-- The mutable fields of `ImageTreeprocessor`.  Stacks that Python keeps
as "append at the right, index `[-1]`, slice `[:-1]`" lists
(`list_types`, `list_item_nums`) are kept with the top at the HEAD
(append = cons, `[-1]` = head, `[:-1]` = tail).  `hasImage` tracks
whether `self.image` / `self.image_draw` are usable (they are `None`
until `new_image_block` runs; `save_image_block` deletes `image_draw`).
`images` records the `(image, height)` list by its heights. -/
structure ExecState : Type where
  hasImage : Bool
  image_x : Int
  image_y : Int
  indent : Int
  links : List (String × Option (List Block))
  list_types : List String
  list_item_nums : List Int
  y : Int
  image_width : Int
  images : List Int
  line_height : Int
  in_pre : Bool
  width_spec : List (Int × Int × Int)
  width_spec_index : Int
  start_x : Int
  end_x : Int
  events : List Event
deriving DecidableEq, Repr

/-- Python `re.sub('\s+', ' ', text)` whitespace class (ASCII part;
the claims only exercise ASCII text). -/
def isPySpace (c : Char) : Bool :=
  c = ' ' || c = '\t' || c = '\n' || c = '\r' || c = '\x0b' || c = '\x0c'

/-- Helper for `compact_whitespace`: collapse every run of whitespace to a
single `' '`.  The flag says whether the previous character was part of a
whitespace run already emitted. -/
def compactAux : Bool → List Char → List Char
  | _, [] => []
  | prev, c :: cs =>
      if isPySpace c then
        if prev then compactAux true cs else ' ' :: compactAux true cs
      else
        c :: compactAux false cs

/-- `compact_whitespace`: `re.sub('\s+', ' ', text)`. -/
def compactWhitespace (t : String) : String :=
  ⟨compactAux false t.data⟩

/-- Python `text.split(sep)` for a single-character separator: splits on
every occurrence, keeping empty pieces (`"".split(" ") == [""]`). -/
def splitChar (sep : Char) (t : String) : List String :=
  go t.data []
where
  go : List Char → List Char → List String
    | [], acc => [⟨acc.reverse⟩]
    | c :: cs, acc =>
        if c = sep then (⟨acc.reverse⟩ : String) :: go cs [] else go cs (c :: acc)

/-- Python `" ".join(xs)`. -/
def joinSpace : List String → String
  | [] => ""
  | [x] => x
  | x :: xs => x ++ " " ++ joinSpace xs

/-- Lexicographic order on `(yOffset, xOffset, width)` triples: the order
Python's tuple comparison uses when `list.sort()` sorts the width-spec. -/
def wsLe (a b : Int × Int × Int) : Prop :=
  a.1 < b.1 ∨ (a.1 = b.1 ∧ (a.2.1 < b.2.1 ∨ (a.2.1 = b.2.1 ∧ a.2.2 ≤ b.2.2)))

instance : DecidableRel wsLe := fun a b => by unfold wsLe; infer_instance

/-- Model of `self.width_spec.sort()`: Python's stable ascending sort of
the tuple list.  `wsLe` is a total, antisymmetric order on the tuple
values, so every stable ascending sort yields this exact list of values;
insertion sort is used because it evaluates by kernel reduction. -/
def pySort (ws : List (Int × Int × Int)) : List (Int × Int × Int) :=
  List.insertionSort wsLe ws

/-- Model of `max(width_spec, key=lambda x: x[2])` (line 49): Python `max`
returns the first element whose key is maximal (later elements replace the
current best only when strictly greater), and raises `ValueError` on an
empty sequence (`none` here). -/
def maxByThird : List (Int × Int × Int) → Option (Int × Int × Int)
  | [] => none
  | w :: ws => some (ws.foldl (fun acc x => if x.2.2 > acc.2.2 then x else acc) w)

/-- `apply_width_spec` (lines 93–98): lazily advance the width-spec index
(at most one entry per call) when the next entry's `yOffset` is
`≤ y + h`, updating the active column bounds
(`start_x = entry[1]`, `end_x = start_x + entry[2]`). -/
def applyWidthSpec (h : Int) (s : ExecState) : ExecState :=
  if s.width_spec_index + 1 < (s.width_spec.length : Int) then
    if (s.width_spec.getD (s.width_spec_index + 1).toNat (0, 0, 0)).1 ≤ s.y + h then
      let e := s.width_spec.getD (s.width_spec_index + 1).toNat (0, 0, 0)
      { s with width_spec_index := s.width_spec_index + 1,
               start_x := e.2.1, end_x := e.2.1 + e.2.2 }
    else s
  else s

/-- `newline` (lines 315–323).  Python encodes "use the current line
height" with the default argument `h = -1`; the `Option` is that
sentinel (`none` = no explicit height given). -/
def newline (ho : Option Int) (s : ExecState) : ExecState :=
  let h := ho.getD s.line_height
  { s with image_y := s.image_y + h, y := s.y + h,
           image_x := s.start_x + s.indent, line_height := 0 }

/-- `save_image_block` (lines 403–406): if a chunk is open, append it with
its current cursor `image_y` as the recorded used height, and delete the
drawing handle (`del self.image_draw`), after which the chunk is no
longer drawable. -/
def saveImageBlock (s : ExecState) : ExecState :=
  if s.hasImage then { s with images := s.images ++ [s.image_y], hasImage := false }
  else s

/-- `new_image_block` (lines 325–330): save the current chunk (if any) and
open a fresh one of capacity `IMAGE_BLOCK_HEIGHT`, resetting the
chunk-local cursor.  Note `image_x` is NOT reset. -/
def newImageBlock (s : ExecState) : ExecState :=
  let s' := saveImageBlock s
  { s' with hasImage := true, image_y := 0 }

/-- `ensure_image` (lines 103–113): apply the width spec for the pending
height, then if `image_y + h` exceeds the chunk capacity either report
the capacity failure and return Python `None` (when the chunk is still
empty) or roll over to a fresh chunk.  The returned inner `Option Unit`
is the Python return value (`self.image_draw` or `None`); the outer
`Option` is a raised exception (`self.image.size` on `None`). -/
def ensureImage (h : Int) (s : ExecState) : Option (Option Unit × ExecState) :=
  let s' := applyWidthSpec h s
  if s'.hasImage then
    if s'.image_y + h > IMAGE_BLOCK_HEIGHT then
      if s'.image_y = 0 then
        some (none, { s' with events := s'.events ++
          [Event.message "Image block size too small!  Results will be cropped..."] })
      else
        some (some (), newImageBlock s')
    else
      some (some (), s')
  else none

/-- The assembled output of `get_image`: its dimensions and the list of
`(paste y-offset, chunk height)` pairs in paste order. -/
structure FinalImage : Type where
  width : Int
  height : Int
  pastes : List (Int × Int)
deriving DecidableEq, Repr

/-- The paste loop of `get_image` (lines 121–124): each chunk is pasted at
the running offset `y`, which then advances by that chunk's recorded
height. -/
def pasteOffsets : List Int → Int → List (Int × Int)
  | [], _ => []
  | h :: t, y => (y, h) :: pasteOffsets t (y + h)

/-- `get_image` (lines 115–126): finalize the open chunk, compute the total
height as `reduce(lambda x, y: x + y[1], self.images, 0)` (the sum of the
recorded used heights), and paste the chunks at increasing offsets. -/
def getImage (s : ExecState) : FinalImage × ExecState :=
  let s' := saveImageBlock s
  let height := s'.images.foldl (fun x y => x + y) 0
  (⟨s'.image_width, height, pasteOffsets s'.images 0⟩, s')

section Renderer

variable (m : Font → String → Int × Int) (cfg : Config)

/-- The inner measuring loop of `render_text` (lines 360–367): starting
from `endI = startI`, keep extending the candidate `parts[startI:endI+1]`
while `image_x + measured width` does not exceed `end_x`; stop at the
first overflow or at the end of the token list, yielding the final
`end_index` together with the last measured `(w, h)`.  The loop runs at
most `parts.length - endI` times, so `parts.length + 1` fuel always
suffices; the fuel-exhausted branch mirrors the ordinary loop exit. -/
def extendIdx (font : Font) (parts : List String) (ix ex : Int) :
    Nat → Nat → Nat → Int × Int → Nat × Int × Int
  | 0, _, endI, wh => (endI, wh)
  | fuel + 1, startI, endI, wh =>
      if endI < parts.length then
        let wh' := m font (joinSpace ((parts.drop startI).take (endI + 1 - startI)))
        if ix + wh'.1 > ex then (endI, wh')
        else extendIdx font parts ix ex fuel startI (endI + 1) wh'
      else (endI, wh)

/-- The initial `(w, h)` pair of the measuring loop: Python initialises
`w = 0` (line 360) and `h` is the stale value from the previous
iteration; since the inner loop always measures at least once before the
pair is used, the initial value is never observed. -/
def wrapInitWH : Int × Int := (0, 0)

/-- The outer word-wrap loop of `render_text` (lines 359–399).  `draw` is
the Python local variable of the same name: `none` when it holds Python
`None` (in which case the next `draw.textsize` / `draw.text` raises).
Each iteration consumes at least one token (`startI` strictly
increases), so `parts.length + 1` fuel always suffices; the
fuel-exhausted branch returns like the ordinary loop exit. -/
def wrapLoop (font : Font) (color : Color) (end_block : Bool) (parts : List String) :
    Nat → Nat → Option Unit → List Block → ExecState → Option (List Block × ExecState)
  | 0, _, _, blocks, s => some (blocks, s)
  | fuel + 1, startI, draw, blocks, s =>
      if startI < parts.length then
        match draw with
        | none => none
        | some _ =>
          let r := extendIdx m font parts s.image_x s.end_x (parts.length + 1) startI startI wrapInitWH
          let endI := r.1
          let h := r.2.2
          let endI' := if startI = endI then startI + 1 else endI
          let frag := joinSpace ((parts.drop startI).take (endI' - startI))
          match ensureImage h s with
          | none => none
          | some (d, s1) =>
            let s2 := { s1 with line_height := max h s1.line_height }
            match d with
            | none => none
            | some _ =>
              let s3 := { s2 with events := s2.events ++
                [Event.drawText s2.image_x s2.image_y frag font color] }
              let wh2 := m font frag
              let blocks' := blocks ++ [(s3.image_x, s3.y, wh2.1, wh2.2)]
              let s4 :=
                if endI' < parts.length then newline none s3
                else if end_block then newline none s3
                else { s3 with image_x := s3.image_x + wh2.1 }
              wrapLoop font color end_block parts fuel endI' (some ()) blocks' s4
      else some (blocks, s)

/-- The preformatted branch of `render_text` (lines 341–351): draw each
line verbatim at the cursor and emit an unconditional newline. -/
def preLines (font : Font) (color : Color) :
    List String → List Block → ExecState → Option (List Block × ExecState)
  | [], blocks, s => some (blocks, s)
  | line :: rest, blocks, s =>
      if s.hasImage then
        let wh := m font line
        match ensureImage wh.2 s with
        | none => none
        | some (d, s1) =>
          match d with
          | none => none
          | some _ =>
            let s2 := { s1 with events := s1.events ++
              [Event.drawText s1.image_x s1.image_y line font color] }
            let blocks' := blocks ++ [(s2.image_x, s2.y, wh.1, wh.2)]
            let s3 := newline none { s2 with line_height := max wh.2 s2.line_height }
            preLines font color rest blocks' s3
      else none

/-- `render_text` (lines 332–401).  A `text` of Python `None` returns
immediately (Python returns `None`, hence the inner `Option` around the
block list); otherwise the preformatted or the greedy word-wrap path
runs and the list of drawn bounding boxes is returned. -/
def renderText (text : Option String) (color : Color) (end_block : Bool)
    (fontArg : Option Font) (s : ExecState) : Option (Option (List Block) × ExecState) :=
  match text with
  | none => some (none, s)
  | some t =>
      let font := fontArg.getD Font.default
      if s.in_pre then
        match preLines m font color (splitChar '\n' t) [] s with
        | none => none
        | some (blocks, s') => some (some blocks, s')
      else
        let t' := compactWhitespace t
        let parts := splitChar ' ' t'
        let draw0 : Option Unit := if s.hasImage then some () else none
        match wrapLoop m font color end_block parts (parts.length + 1) 0 draw0 [] s with
        | none => none
        | some (blocks, s') => some (some blocks, s')

/-- `getattr(self, node.tag + "_font")` as used by `handle_h` (line 181);
only tags `h1`–`h6` are dispatched to `handle_h`, so the catch-all arm
is unreachable from `handle_node`. -/
def hFont : String → Font
  | "h1" => Font.h1
  | "h2" => Font.h2
  | "h3" => Font.h3
  | "h4" => Font.h4
  | "h5" => Font.h5
  | "h6" => Font.h6
  | _ => Font.default

/-- `handle_h` (lines 178–184): render the heading's own leading text as a
block in the level-scaled font, then a newline.  Children and tail text
are not touched. -/
def handleH (n : Node) (s : ExecState) : Option ExecState :=
  (renderText m n.text cfg.color true (some (hFont n.tag)) s).map fun r =>
    newline none r.2

/-- `handle_hr` (lines 186–192): newline, draw the rule line across the
active column at half the margin height, then advance by the full
margin height.  (Python's `h / 2` is float division; integer division
here — the claims never inspect rule coordinates.) -/
def handleHr (s : ExecState) : Option ExecState :=
  let s1 := newline none s
  if s1.hasImage then
    let h := cfg.margin_bottom
    let pad := cfg.hr_padding
    let s2 := { s1 with events := s1.events ++
      [Event.drawLine (s1.start_x + pad) (s1.image_y + h / 2)
                      (s1.end_x - pad) (s1.image_y + h / 2) cfg.hr_color] }
    some (newline (some h) s2)
  else none

/-- `handle_children` (lines 157–160) relative to a given per-node
handler: walk the children in order, propagating a raised exception.
An empty child list is a no-op (`if len(node) > 0`). -/
def handleChildrenVia (hn : Node → ExecState → Option ExecState) :
    List Node → ExecState → Option ExecState
  | [], s => some s
  | c :: rest, s => (hn c s).bind fun s' => handleChildrenVia hn rest s'

/-- `handle_a` (lines 131–140), relative to the child walker `hch`:
render the anchor's own leading text (in link color when an `href`
attribute is present, registering the returned boxes in `self.links`),
then recurse into children, then render the tail inline in the default
color. -/
def handleA (hch : List Node → ExecState → Option ExecState)
    (n : Node) (s : ExecState) : Option ExecState :=
  match n.attrib.lookup "href" with
  | some href =>
      (renderText m n.text cfg.link_color false none s).bind fun r =>
      (hch n.children { r.2 with links := r.2.links ++ [(href, r.1)] }).bind fun s2 =>
      (renderText m n.tail cfg.color false none s2).map fun r2 => r2.2
  | none =>
      (renderText m n.text cfg.color false none s).bind fun r =>
      (hch n.children r.2).bind fun s2 =>
      (renderText m n.tail cfg.color false none s2).map fun r2 => r2.2

/-- `handle_code` (lines 150–155). -/
def handleCode (hch : List Node → ExecState → Option ExecState)
    (n : Node) (s : ExecState) : Option ExecState :=
  (renderText m n.text cfg.color false (some Font.code) s).bind fun r =>
  (hch n.children r.2).bind fun s2 =>
  (renderText m n.tail cfg.color false none s2).map fun r2 => r2.2

/-- `handle_blockquote` (lines 142–148): push the blockquote indent,
newline, recurse, pop the indent, newline. -/
def handleBlockquote (hch : List Node → ExecState → Option ExecState)
    (n : Node) (s : ExecState) : Option ExecState :=
  let s1 := newline none { s with indent := s.indent + cfg.blockquote_indent }
  (hch n.children s1).map fun s2 =>
    newline none { s2 with indent := s2.indent - cfg.blockquote_indent }

/-- `handle_em` (lines 171–176). -/
def handleEm (hch : List Node → ExecState → Option ExecState)
    (n : Node) (s : ExecState) : Option ExecState :=
  (renderText m n.text cfg.color false (some Font.italics) s).bind fun r =>
  (hch n.children r.2).bind fun s2 =>
  (renderText m n.tail cfg.color false none s2).map fun r2 => r2.2

/-- `handle_div` (lines 162–169): newline before and after the children
only when the cursor is not already at the line start. -/
def handleDiv (hch : List Node → ExecState → Option ExecState)
    (n : Node) (s : ExecState) : Option ExecState :=
  let s1 := if s.image_x > s.start_x + s.indent then newline none s else s
  (hch n.children s1).map fun s2 =>
    if s2.image_x > s2.start_x + s2.indent then newline none s2 else s2

/-- `handle_li` (lines 194–229): peek the innermost list context
(raising `IndexError` when there is none); unordered items draw a bullet
ellipse, ordered items draw the current ordinal as `"{n}."` and
increment it; then the item text (block-ending), the children, and a
newline with the item bottom margin.  Tail text is deliberately not
rendered (lines 227–228). -/
def handleLi (hch : List Node → ExecState → Option ExecState)
    (n : Node) (s : ExecState) : Option ExecState :=
  match s.list_types with
  | [] => none
  | lt :: _ =>
    let afterBranch : Option ExecState :=
      if lt = "unordered" then
        if s.hasImage then
          let wh := m Font.default "E"
          match ensureImage wh.2 s with
          | none => none
          | some (d, s1) =>
            match d with
            | none => none
            | some _ =>
              let x := s1.image_x - BULLET_DIAMETER - cfg.bullet_outdent
              let ey := s1.image_y + (wh.2 - BULLET_DIAMETER) / 2
              let s2 := { s1 with events := s1.events ++
                [Event.drawEllipse x ey (x + BULLET_DIAMETER) (ey + BULLET_DIAMETER)
                  cfg.color cfg.color] }
              (renderText m n.text cfg.color true none s2).bind fun r =>
                hch n.children r.2
        else none
      else if lt = "ordered" then
        match s.list_item_nums with
        | [] => none
        | num :: rest =>
          if s.hasImage then
            let current := toString num
            let wh := m Font.default current
            match ensureImage wh.2 s with
            | none => none
            | some (d, s1) =>
              match d with
              | none => none
              | some _ =>
                let x := s1.image_x - wh.1 - cfg.bullet_outdent
                let s2 := { s1 with
                  events := s1.events ++
                    [Event.drawText x s1.image_y (current ++ ".") Font.default cfg.color],
                  list_item_nums := (num + 1) :: rest }
                (renderText m n.text cfg.color true none s2).bind fun r =>
                  hch n.children r.2
          else none
      else some s
    afterBranch.map fun s' => newline (some cfg.list_item_margin_bottom) s'

/-- `handle_ol` (lines 256–268): push the list indent and an ordered list
frame with the ordinal counter starting at 1, newline, recurse, pop the
frame and the indent, newline. -/
def handleOl (hch : List Node → ExecState → Option ExecState)
    (n : Node) (s : ExecState) : Option ExecState :=
  let s1 := newline none { s with indent := s.indent + cfg.list_indent }
  let s2 := { s1 with list_types := "ordered" :: s1.list_types,
                      list_item_nums := 1 :: s1.list_item_nums }
  (hch n.children s2).map fun s3 =>
    let s4 := { s3 with list_item_nums := s3.list_item_nums.tail,
                        list_types := s3.list_types.tail }
    newline none { s4 with indent := s4.indent - cfg.list_indent }

/-- `handle_p` (lines 270–275). -/
def handleP (hch : List Node → ExecState → Option ExecState)
    (n : Node) (s : ExecState) : Option ExecState :=
  (renderText m n.text cfg.color false none s).bind fun r =>
  (hch n.children r.2).bind fun s2 =>
  (renderText m n.tail cfg.color true none s2).map fun r2 =>
    newline (some cfg.margin_bottom) r2.2

/-- `handle_pre` (lines 277–290): set the preformatted flag (saving the
previous one), push the code indent, newline, recurse, pop, newline,
restore the flag. -/
def handlePre (hch : List Node → ExecState → Option ExecState)
    (n : Node) (s : ExecState) : Option ExecState :=
  let old := s.in_pre
  let s1 := newline none { s with in_pre := true, indent := s.indent + cfg.code_indent }
  (hch n.children s1).map fun s2 =>
    let s3 := newline none { s2 with indent := s2.indent - cfg.code_indent }
    { s3 with in_pre := old }

/-- `handle_strong` (lines 292–297). -/
def handleStrong (hch : List Node → ExecState → Option ExecState)
    (n : Node) (s : ExecState) : Option ExecState :=
  (renderText m n.text cfg.color false (some Font.bold) s).bind fun r =>
  (hch n.children r.2).bind fun s2 =>
  (renderText m n.tail cfg.color false none s2).map fun r2 => r2.2

/-- `handle_ul` (lines 299–309): like `handle_ol` but pushes an unordered
frame (no ordinal counter). -/
def handleUl (hch : List Node → ExecState → Option ExecState)
    (n : Node) (s : ExecState) : Option ExecState :=
  let s1 := newline none { s with indent := s.indent + cfg.list_indent }
  let s2 := { s1 with list_types := "unordered" :: s1.list_types }
  (hch n.children s2).map fun s3 =>
    let s4 := { s3 with list_types := s3.list_types.tail }
    newline none { s4 with indent := s4.indent - cfg.list_indent }

/-- `handle_unknown` (lines 311–313): log the tag and still recurse. -/
def handleUnknown (hch : List Node → ExecState → Option ExecState)
    (n : Node) (s : ExecState) : Option ExecState :=
  hch n.children
    { s with events := s.events ++ [Event.message ("Unknown tag: " ++ n.tag)] }

/-- `handle_node` (lines 231–254) relative to the child walker `hch`:
dispatch on the tag, defaulting to `handle_unknown`. -/
def handleNodeVia (hch : List Node → ExecState → Option ExecState)
    (n : Node) (s : ExecState) : Option ExecState :=
  if n.tag = "a" then handleA m cfg hch n s
  else if n.tag = "code" then handleCode m cfg hch n s
  else if n.tag = "blockquote" then handleBlockquote cfg hch n s
  else if n.tag = "em" then handleEm m cfg hch n s
  else if n.tag = "div" then handleDiv hch n s
  else if n.tag = "h1" ∨ n.tag = "h2" ∨ n.tag = "h3" ∨ n.tag = "h4" ∨
          n.tag = "h5" ∨ n.tag = "h6" then handleH m cfg n s
  else if n.tag = "hr" then handleHr cfg s
  else if n.tag = "li" then handleLi m cfg hch n s
  else if n.tag = "ol" then handleOl cfg hch n s
  else if n.tag = "p" then handleP m cfg hch n s
  else if n.tag = "pre" then handlePre cfg hch n s
  else if n.tag = "strong" then handleStrong m cfg hch n s
  else if n.tag = "ul" then handleUl cfg hch n s
  else handleUnknown hch n s

/-- The recursive walk, structural in the depth fuel: children at depth
budget `fuel + 1` dispatch each child node with budget `fuel`.  The
Python recursion is bounded by tree depth, so any fuel at least the
tree's depth gives the exact Python behaviour; exhaustion returns the
exception value `none`, and every theorem about the walk carries a
success hypothesis that absorbs it. -/
def handleChildren : Nat → List Node → ExecState → Option ExecState
  | 0, cs, s =>
      match cs with
      | [] => some s
      | _ :: _ => none
  | fuel + 1, cs, s =>
      handleChildrenVia (handleNodeVia m cfg (handleChildren fuel)) cs s

/-- `handle_node` at a given depth budget. -/
def handleNode (fuel : Nat) (n : Node) (s : ExecState) : Option ExecState :=
  handleNodeVia m cfg (handleChildren m cfg fuel) n s

/-- `run` (lines 408–412): open the first chunk and walk the tree. -/
def runM (fuel : Nat) (root : Node) (s : ExecState) : Option ExecState :=
  handleNode m cfg fuel root (newImageBlock s)

end Renderer

/-- `__init__` (lines 36–91): zero the cursors and stacks, compute
`image_width = max(width_spec, key=lambda x: x[2])[2]` (raising on an
empty width-spec, hence `Option`), sort the width-spec in place, set the
index before the first entry and run `apply_width_spec()` once.  Python
leaves the `start_x`/`end_x` attributes unset until `apply_width_spec`
first fires; they are modelled as 0, and no verified claim exercises a
width-spec whose least `yOffset` is positive (where Python would raise
`AttributeError` on first use instead).  Fonts and config values live in
the measurement function and `Config` and do not affect the state. -/
def initState (width_spec : List (Int × Int × Int)) : Option ExecState :=
  match maxByThird width_spec with
  | none => none
  | some mx =>
      let s : ExecState := {
        hasImage := false, image_x := 0, image_y := 0, indent := 0, links := [],
        list_types := [], list_item_nums := [], y := 0,
        image_width := mx.2.2, images := [], line_height := 0, in_pre := false,
        width_spec := pySort width_spec, width_spec_index := -1,
        start_x := 0, end_x := 0, events := [] }
      some (applyWidthSpec 0 s)

/-- The caller's `width_spec` list as observed after `__init__` returns:
line 88 (`self.width_spec = width_spec`) makes the field alias the
caller's list object, and line 89 (`self.width_spec.sort()`) sorts that
shared object in place, so the caller's own list now holds exactly the
sorted sequence. -/
def callerWidthSpecAfterInit (ws : List (Int × Int × Int)) : List (Int × Int × Int) :=
  pySort ws

/-- A subtree is *li-shielded* when every `li` node inside it sits below an
intervening `ol`/`ul` (as in every tree the markdown parser produces):
entering the subtree can never run `handle_li` against the enclosing
list's ordinal counter.  List nodes shield unconditionally because their
handlers push and pop their own frame. -/
inductive Shielded : Node → Prop where
  | list : ∀ t x l a cs, (t = "ol" ∨ t = "ul") → Shielded (.mk t x l a cs)
  | other : ∀ t x l a cs, t ≠ "li" → ¬(t = "ol" ∨ t = "ul") →
      (∀ c ∈ cs, Shielded c) → Shielded (.mk t x l a cs)

/-- The ordinal values an ordered list draws: `ordinalSeq k n = [k, k+1, ..., k+n-1]`. -/
def ordinalSeq : Int → Nat → List Int
  | _, 0 => []
  | k, n + 1 => k :: ordinalSeq (k + 1) n

instance : IsTotal (Int × Int × Int) wsLe :=
  ⟨fun a b => by unfold wsLe; omega⟩

instance : IsTrans (Int × Int × Int) wsLe :=
  ⟨fun a b c => by unfold wsLe; omega⟩

/-! ## Concrete inputs used by the counterexamples and witnesses -/

/-- A simple deterministic text measurer: 7 pixels per character, line
height 10. -/
def mEx : Font → String → Int × Int := fun _ t => (7 * (t.length : Int), 10)

/-- A measurer whose every run is 1001 pixels tall — taller than one
chunk's capacity. -/
def mTall : Font → String → Int × Int := fun _ t => (7 * (t.length : Int), 1001)

/-- A measurer whose every run is 990 pixels tall. -/
def m990 : Font → String → Int × Int := fun _ t => (7 * (t.length : Int), 990)

/-- A measurer whose every run is 20 pixels tall. -/
def m20 : Font → String → Int × Int := fun _ t => (7 * (t.length : Int), 20)

/-- The default configuration. -/
def cfgEx : Config := {}

/-- A renderer state as reached right after `run` opens the first chunk on
the single-entry width-spec `[(0, 0, 200)]`. -/
def stEx : ExecState :=
  { hasImage := true, image_x := 0, image_y := 0, indent := 0, links := [],
    list_types := [], list_item_nums := [], y := 0, image_width := 200,
    images := [], line_height := 0, in_pre := false,
    width_spec := [(0, 0, 200)], width_spec_index := 0, start_x := 0,
    end_x := 200, events := [] }

/-- A state mid-document at logical `y = 490` on the two-column spec
`[(0, 0, 100), (500, 10, 100)]`, first column still active. -/
def st490 : ExecState :=
  { hasImage := true, image_x := 0, image_y := 490, indent := 0, links := [],
    list_types := [], list_item_nums := [], y := 490, image_width := 100,
    images := [], line_height := 0, in_pre := false,
    width_spec := [(0, 0, 100), (500, 10, 100)], width_spec_index := 0, start_x := 0,
    end_x := 100, events := [] }

/-- `<em>child</em>` -/
def ndEm : Node := .mk "em" (some "child") none [] []

/-- `<a href="http://x">click<em>child</em></a>` -/
def ndA : Node := .mk "a" (some "click") none [("href", "http://x")] [ndEm]

/-- `<p>x</p>` -/
def ndP : Node := .mk "p" (some "x") none [] []

/-- `<p>` with tail text `a` (as the markdown parser leaves trailing text
on the previous sibling). -/
def ndPTail : Node := .mk "p" none (some "a") [] []

/-- A root `<div>` wrapping `ndPTail`. -/
def ndDiv : Node := .mk "div" none none [] [ndPTail]

/-- `<li>one</li>`, `<li>two</li>`, and `<ol>` of both. -/
def ndLi1 : Node := .mk "li" (some "one") none [] []

def ndLi2 : Node := .mk "li" (some "two") none [] []

def ndOl : Node := .mk "ol" none none [] [ndLi1, ndLi2]

/-- `<blockquote><ol><li>one</li><li>two</li></ol></blockquote>` -/
def ndBq : Node := .mk "blockquote" none none [] [ndOl]

/-- `<h2>Title</h2>` carrying (ignored) tail text and a nested child. -/
def ndH2 : Node := .mk "h2" (some "Title") (some "tail") [] [ndEm]

/-- `<h2>x</h2>` whose text measures 990 pixels tall under `m990`. -/
def ndH990 : Node := .mk "h2" (some "x") none [] []

/-- `<hr/>` -/
def ndHr : Node := .mk "hr" none none [] []

/-- A document root: `<div><h2>x</h2><hr/></div>`. -/
def ndDoc : Node := .mk "div" none none [] [ndH990, ndHr]


/-! ## Step invariants of the walk -/

/-- Facts preserved by every successful step of the walk: the indent and
the list-type stack are unchanged, the ordinal stack keeps its length
and everything below its top, the width-spec is never rewritten and its
index never decreases, and the event log and link list only grow by
appending. -/
structure Preserves (s s' : ExecState) : Prop where
  indent : s'.indent = s.indent
  ltypes : s'.list_types = s.list_types
  nums_len : s'.list_item_nums.length = s.list_item_nums.length
  nums_tail : s'.list_item_nums.tail = s.list_item_nums.tail
  nums_cond : s.list_types.head? ≠ some "ordered" →
    s'.list_item_nums = s.list_item_nums
  wspec : s'.width_spec = s.width_spec
  idx : s.width_spec_index ≤ s'.width_spec_index
  events : ∃ t, s'.events = s.events ++ t
  links : ∃ t, s'.links = s.links ++ t

theorem Preserves.refl (s : ExecState) : Preserves s s :=
  ⟨rfl, rfl, rfl, rfl, fun _ => rfl, rfl, le_refl _, ⟨[], by simp⟩, ⟨[], by simp⟩⟩

theorem Preserves.trans {s1 s2 s3 : ExecState}
    (h1 : Preserves s1 s2) (h2 : Preserves s2 s3) : Preserves s1 s3 := by
  obtain ⟨e1, he1⟩ := h1.events
  obtain ⟨e2, he2⟩ := h2.events
  obtain ⟨l1, hl1⟩ := h1.links
  obtain ⟨l2, hl2⟩ := h2.links
  refine ⟨h2.indent.trans h1.indent, h2.ltypes.trans h1.ltypes,
    h2.nums_len.trans h1.nums_len, h2.nums_tail.trans h1.nums_tail, ?_,
    h2.wspec.trans h1.wspec, le_trans h1.idx h2.idx,
    ⟨e1 ++ e2, by simp [he2, he1]⟩, ⟨l1 ++ l2, by simp [hl2, hl1]⟩⟩
  intro hho
  rw [h2.nums_cond (by rw [h1.ltypes]; exact hho), h1.nums_cond hho]

theorem applyWidthSpec_preserves (h : Int) (s : ExecState) :
    Preserves s (applyWidthSpec h s) := by
  unfold applyWidthSpec
  split
  · split
    · exact ⟨rfl, rfl, rfl, rfl, fun _ => rfl, rfl, by simp, ⟨[], by simp⟩, ⟨[], by simp⟩⟩
    · exact Preserves.refl s
  · exact Preserves.refl s

theorem newline_preserves (ho : Option Int) (s : ExecState) :
    Preserves s (newline ho s) :=
  ⟨rfl, rfl, rfl, rfl, fun _ => rfl, rfl, le_refl _, ⟨[], by simp [newline]⟩, ⟨[], by simp [newline]⟩⟩

theorem saveImageBlock_preserves (s : ExecState) :
    Preserves s (saveImageBlock s) := by
  unfold saveImageBlock
  split
  · exact ⟨rfl, rfl, rfl, rfl, fun _ => rfl, rfl, le_refl _, ⟨[], by simp⟩, ⟨[], by simp⟩⟩
  · exact Preserves.refl s

theorem newImageBlock_preserves (s : ExecState) :
    Preserves s (newImageBlock s) := by
  unfold newImageBlock
  exact Preserves.trans (saveImageBlock_preserves s)
    ⟨rfl, rfl, rfl, rfl, fun _ => rfl, rfl, le_refl _, ⟨[], by simp⟩, ⟨[], by simp⟩⟩

theorem ensureImage_preserves {h : Int} {s : ExecState} {d : Option Unit}
    {s' : ExecState} (he : ensureImage h s = some (d, s')) : Preserves s s' := by
  simp only [ensureImage] at he
  refine Preserves.trans (applyWidthSpec_preserves h s) ?_
  set sa := applyWidthSpec h s with hsa
  split at he
  · split at he
    · split at he
      · obtain ⟨rfl, rfl⟩ := Prod.mk.injEq .. ▸ (Option.some.injEq .. ▸ he)
        exact ⟨rfl, rfl, rfl, rfl, fun _ => rfl, rfl, le_refl _, ⟨_, rfl⟩, ⟨[], by simp⟩⟩
      · obtain ⟨rfl, rfl⟩ := Prod.mk.injEq .. ▸ (Option.some.injEq .. ▸ he)
        exact newImageBlock_preserves sa
    · obtain ⟨rfl, rfl⟩ := Prod.mk.injEq .. ▸ (Option.some.injEq .. ▸ he)
      exact Preserves.refl sa
  · exact absurd he (by simp)

theorem applyWidthSpec_nums (h : Int) (s : ExecState) :
    (applyWidthSpec h s).list_item_nums = s.list_item_nums := by
  unfold applyWidthSpec
  split
  · split <;> rfl
  · rfl

theorem ensureImage_nums {h : Int} {s : ExecState} {d : Option Unit} {s' : ExecState}
    (he : ensureImage h s = some (d, s')) :
    s'.list_item_nums = s.list_item_nums := by
  simp only [ensureImage] at he
  split at he
  · split at he
    · split at he
      · obtain ⟨rfl, rfl⟩ := Prod.mk.injEq .. ▸ (Option.some.injEq .. ▸ he)
        exact applyWidthSpec_nums h s
      · obtain ⟨rfl, rfl⟩ := Prod.mk.injEq .. ▸ (Option.some.injEq .. ▸ he)
        simp only [newImageBlock, saveImageBlock]
        split <;> exact applyWidthSpec_nums h s
    · obtain ⟨rfl, rfl⟩ := Prod.mk.injEq .. ▸ (Option.some.injEq .. ▸ he)
      exact applyWidthSpec_nums h s
  · exact absurd he (by simp)

section WalkProofs

variable {m : Font → String → Int × Int} {cfg : Config}

theorem wrapLoop_preserves {font : Font} {color : Color} {eb : Bool} {parts : List String} :
    ∀ (fuel startI : Nat) (draw : Option Unit) (blocks : List Block) (s : ExecState)
      {bs : List Block} {s' : ExecState},
      wrapLoop m font color eb parts fuel startI draw blocks s = some (bs, s') →
      Preserves s s' := by
  intro fuel
  induction fuel with
  | zero =>
      intro startI draw blocks s bs s' hw
      simp only [wrapLoop, Option.some.injEq, Prod.mk.injEq] at hw
      obtain ⟨rfl, rfl⟩ := hw
      exact Preserves.refl s
  | succ fuel ih =>
      intro startI draw blocks s bs s' hw
      cases draw with
      | none =>
          simp only [wrapLoop] at hw
          split at hw
          · exact absurd hw (by simp)
          · simp only [Option.some.injEq, Prod.mk.injEq] at hw
            obtain ⟨rfl, rfl⟩ := hw
            exact Preserves.refl s
      | some u =>
          simp only [wrapLoop] at hw
          split at hw
          · split at hw
            · exact absurd hw (by simp)
            · rename_i d s1 he
              split at hw
              · exact absurd hw (by simp)
              · refine Preserves.trans ?_ (ih _ _ _ _ hw)
                refine Preserves.trans (ensureImage_preserves he) ?_
                repeat' split
                all_goals
                  first
                    | (refine Preserves.trans ?_ (newline_preserves none _)
                       exact ⟨rfl, rfl, rfl, rfl, fun _ => rfl, rfl, le_refl _, ⟨_, rfl⟩, ⟨[], by simp⟩⟩)
                    | exact ⟨rfl, rfl, rfl, rfl, fun _ => rfl, rfl, le_refl _, ⟨_, rfl⟩, ⟨[], by simp⟩⟩
          · simp only [Option.some.injEq, Prod.mk.injEq] at hw
            obtain ⟨rfl, rfl⟩ := hw
            exact Preserves.refl s

theorem preLines_preserves {font : Font} {color : Color} :
    ∀ (lines : List String) (blocks : List Block) (s : ExecState)
      {bs : List Block} {s' : ExecState},
      preLines m font color lines blocks s = some (bs, s') → Preserves s s' := by
  intro lines
  induction lines with
  | nil =>
      intro blocks s bs s' hp
      simp only [preLines, Option.some.injEq, Prod.mk.injEq] at hp
      obtain ⟨rfl, rfl⟩ := hp
      exact Preserves.refl s
  | cons line rest ih =>
      intro blocks s bs s' hp
      simp only [preLines] at hp
      split at hp
      · split at hp
        · exact absurd hp (by simp)
        · rename_i d s1 he
          split at hp
          · exact absurd hp (by simp)
          · refine Preserves.trans ?_ (ih _ _ hp)
            refine Preserves.trans (ensureImage_preserves he) ?_
            refine Preserves.trans ?_ (newline_preserves none _)
            exact ⟨rfl, rfl, rfl, rfl, fun _ => rfl, rfl, le_refl _, ⟨_, rfl⟩, ⟨[], by simp⟩⟩
      · exact absurd hp (by simp)

theorem renderText_preserves {text : Option String} {color : Color} {eb : Bool}
    {fontArg : Option Font} {s : ExecState} {r : Option (List Block) × ExecState}
    (h : renderText m text color eb fontArg s = some r) : Preserves s r.2 := by
  unfold renderText at h
  cases text with
  | none =>
      simp only [Option.some.injEq] at h
      subst h
      exact Preserves.refl s
  | some t =>
      simp only at h
      split at h
      · cases hp : preLines m (fontArg.getD Font.default) color (splitChar '\n' t) [] s with
        | none => rw [hp] at h; exact absurd h (by simp)
        | some p =>
            rw [hp] at h
            simp only [Option.some.injEq] at h
            subst h
            exact preLines_preserves _ _ _ hp
      · cases hw : wrapLoop m (fontArg.getD Font.default) color eb
            (splitChar ' ' (compactWhitespace t)) (splitChar ' ' (compactWhitespace t)).length.succ
            0 (if s.hasImage then some () else none) [] s with
        | none => rw [hw] at h; exact absurd h (by simp)
        | some p =>
            rw [hw] at h
            simp only [Option.some.injEq] at h
            subst h
            exact wrapLoop_preserves _ _ _ _ _ hw

theorem handleH_preserves {n : Node} {s s' : ExecState}
    (h : handleH m cfg n s = some s') : Preserves s s' := by
  unfold handleH at h
  cases hr : renderText m n.text cfg.color true (some (hFont n.tag)) s with
  | none => rw [hr] at h; exact absurd h (by simp)
  | some r =>
      rw [hr] at h
      simp only [Option.map_some', Option.some.injEq] at h
      subst h
      exact Preserves.trans (renderText_preserves hr) (newline_preserves none _)

theorem handleHr_preserves {s s' : ExecState}
    (h : handleHr cfg s = some s') : Preserves s s' := by
  simp only [handleHr] at h
  split at h
  · simp only [Option.some.injEq] at h
    subst h
    refine Preserves.trans (newline_preserves none s) ?_
    refine Preserves.trans ?_ (newline_preserves _ _)
    exact ⟨rfl, rfl, rfl, rfl, fun _ => rfl, rfl, le_refl _, ⟨_, rfl⟩, ⟨[], by simp⟩⟩
  · exact absurd h (by simp)

end WalkProofs

section HandlerProofs

variable {m : Font → String → Int × Int} {cfg : Config}
variable {hch : List Node → ExecState → Option ExecState}

theorem handleA_preserves
    (hc : ∀ cs s s', hch cs s = some s' → Preserves s s')
    {n : Node} {s s' : ExecState} (h : handleA m cfg hch n s = some s') :
    Preserves s s' := by
  unfold handleA at h
  split at h
  · obtain ⟨r, hr, h⟩ := Option.bind_eq_some.mp h
    obtain ⟨s2, hs2, h⟩ := Option.bind_eq_some.mp h
    obtain ⟨r2, hr2, h⟩ := Option.map_eq_some'.mp h
    subst h
    refine Preserves.trans (renderText_preserves hr) ?_
    refine Preserves.trans ?_ (Preserves.trans (hc _ _ _ hs2) (renderText_preserves hr2))
    exact ⟨rfl, rfl, rfl, rfl, fun _ => rfl, rfl, le_refl _, ⟨[], by simp⟩, ⟨_, rfl⟩⟩
  · obtain ⟨r, hr, h⟩ := Option.bind_eq_some.mp h
    obtain ⟨s2, hs2, h⟩ := Option.bind_eq_some.mp h
    obtain ⟨r2, hr2, h⟩ := Option.map_eq_some'.mp h
    subst h
    exact Preserves.trans (renderText_preserves hr)
      (Preserves.trans (hc _ _ _ hs2) (renderText_preserves hr2))

theorem handleCode_preserves
    (hc : ∀ cs s s', hch cs s = some s' → Preserves s s')
    {n : Node} {s s' : ExecState} (h : handleCode m cfg hch n s = some s') :
    Preserves s s' := by
  unfold handleCode at h
  obtain ⟨r, hr, h⟩ := Option.bind_eq_some.mp h
  obtain ⟨s2, hs2, h⟩ := Option.bind_eq_some.mp h
  obtain ⟨r2, hr2, h⟩ := Option.map_eq_some'.mp h
  subst h
  exact Preserves.trans (renderText_preserves hr)
    (Preserves.trans (hc _ _ _ hs2) (renderText_preserves hr2))

theorem handleEm_preserves
    (hc : ∀ cs s s', hch cs s = some s' → Preserves s s')
    {n : Node} {s s' : ExecState} (h : handleEm m cfg hch n s = some s') :
    Preserves s s' := by
  unfold handleEm at h
  obtain ⟨r, hr, h⟩ := Option.bind_eq_some.mp h
  obtain ⟨s2, hs2, h⟩ := Option.bind_eq_some.mp h
  obtain ⟨r2, hr2, h⟩ := Option.map_eq_some'.mp h
  subst h
  exact Preserves.trans (renderText_preserves hr)
    (Preserves.trans (hc _ _ _ hs2) (renderText_preserves hr2))

theorem handleStrong_preserves
    (hc : ∀ cs s s', hch cs s = some s' → Preserves s s')
    {n : Node} {s s' : ExecState} (h : handleStrong m cfg hch n s = some s') :
    Preserves s s' := by
  unfold handleStrong at h
  obtain ⟨r, hr, h⟩ := Option.bind_eq_some.mp h
  obtain ⟨s2, hs2, h⟩ := Option.bind_eq_some.mp h
  obtain ⟨r2, hr2, h⟩ := Option.map_eq_some'.mp h
  subst h
  exact Preserves.trans (renderText_preserves hr)
    (Preserves.trans (hc _ _ _ hs2) (renderText_preserves hr2))

theorem handleP_preserves
    (hc : ∀ cs s s', hch cs s = some s' → Preserves s s')
    {n : Node} {s s' : ExecState} (h : handleP m cfg hch n s = some s') :
    Preserves s s' := by
  unfold handleP at h
  obtain ⟨r, hr, h⟩ := Option.bind_eq_some.mp h
  obtain ⟨s2, hs2, h⟩ := Option.bind_eq_some.mp h
  obtain ⟨r2, hr2, h⟩ := Option.map_eq_some'.mp h
  subst h
  exact Preserves.trans (renderText_preserves hr)
    (Preserves.trans (hc _ _ _ hs2)
      (Preserves.trans (renderText_preserves hr2) (newline_preserves _ _)))

theorem handleBlockquote_preserves
    (hc : ∀ cs s s', hch cs s = some s' → Preserves s s')
    {n : Node} {s s' : ExecState} (h : handleBlockquote cfg hch n s = some s') :
    Preserves s s' := by
  unfold handleBlockquote at h
  obtain ⟨s2, hs2, h⟩ := Option.map_eq_some'.mp h
  subst h
  have h1 := hc _ _ _ hs2
  have hind : s2.indent = s.indent + cfg.blockquote_indent := by
    simpa [newline] using h1.indent
  obtain ⟨t, ht⟩ := h1.events
  obtain ⟨l, hl⟩ := h1.links
  refine ⟨?_, ?_, ?_, ?_, ?_, ?_, ?_, ⟨t, ?_⟩, ⟨l, ?_⟩⟩
  · simp [newline, hind]
  · simpa [newline] using h1.ltypes
  · simpa [newline] using h1.nums_len
  · simpa [newline] using h1.nums_tail
  · intro hho
    have h5 := h1.nums_cond (by simpa [newline] using hho)
    simp only [newline] at h5 ⊢
    simpa using h5
  · simpa [newline] using h1.wspec
  · simpa [newline] using h1.idx
  · simp only [newline] at ht ⊢; simpa using ht
  · simp only [newline] at hl ⊢; simpa using hl

theorem handlePre_preserves
    (hc : ∀ cs s s', hch cs s = some s' → Preserves s s')
    {n : Node} {s s' : ExecState} (h : handlePre cfg hch n s = some s') :
    Preserves s s' := by
  unfold handlePre at h
  obtain ⟨s2, hs2, h⟩ := Option.map_eq_some'.mp h
  subst h
  have h1 := hc _ _ _ hs2
  have hind : s2.indent = s.indent + cfg.code_indent := by
    simpa [newline] using h1.indent
  obtain ⟨t, ht⟩ := h1.events
  obtain ⟨l, hl⟩ := h1.links
  refine ⟨?_, ?_, ?_, ?_, ?_, ?_, ?_, ⟨t, ?_⟩, ⟨l, ?_⟩⟩
  · simp [newline, hind]
  · simpa [newline] using h1.ltypes
  · simpa [newline] using h1.nums_len
  · simpa [newline] using h1.nums_tail
  · intro hho
    have h5 := h1.nums_cond (by simpa [newline] using hho)
    simp only [newline] at h5 ⊢
    simpa using h5
  · simpa [newline] using h1.wspec
  · simpa [newline] using h1.idx
  · simp only [newline] at ht ⊢; simpa using ht
  · simp only [newline] at hl ⊢; simpa using hl

theorem handleDiv_preserves
    (hc : ∀ cs s s', hch cs s = some s' → Preserves s s')
    {n : Node} {s s' : ExecState} (h : handleDiv hch n s = some s') :
    Preserves s s' := by
  unfold handleDiv at h
  obtain ⟨s2, hs2, h⟩ := Option.map_eq_some'.mp h
  subst h
  have h0 : Preserves s (if s.image_x > s.start_x + s.indent then newline none s else s) := by
    split
    · exact newline_preserves none s
    · exact Preserves.refl s
  refine Preserves.trans h0 (Preserves.trans (hc _ _ _ hs2) ?_)
  split
  · exact newline_preserves none s2
  · exact Preserves.refl s2

theorem handleUnknown_preserves
    (hc : ∀ cs s s', hch cs s = some s' → Preserves s s')
    {n : Node} {s s' : ExecState} (h : handleUnknown hch n s = some s') :
    Preserves s s' := by
  unfold handleUnknown at h
  refine Preserves.trans ?_ (hc _ _ _ h)
  exact ⟨rfl, rfl, rfl, rfl, fun _ => rfl, rfl, le_refl _, ⟨_, rfl⟩, ⟨[], by simp⟩⟩

theorem handleLi_preserves
    (hc : ∀ cs s s', hch cs s = some s' → Preserves s s')
    {n : Node} {s s' : ExecState} (h : handleLi m cfg hch n s = some s') :
    Preserves s s' := by
  unfold handleLi at h
  split at h
  · exact absurd h (by simp)
  · rename_i lt rest0 hlt
    simp only at h
    obtain ⟨sa, hsa, h⟩ := Option.map_eq_some'.mp h
    subst h
    refine Preserves.trans ?_ (newline_preserves _ _)
    split at hsa
    · split at hsa
      · split at hsa
        · exact absurd hsa (by simp)
        · rename_i d s1 he
          split at hsa
          · exact absurd hsa (by simp)
          · obtain ⟨r, hr, hsa⟩ := Option.bind_eq_some.mp hsa
            refine Preserves.trans (ensureImage_preserves he) ?_
            refine Preserves.trans ?_
              (Preserves.trans (renderText_preserves hr) (hc _ _ _ hsa))
            exact ⟨rfl, rfl, rfl, rfl, fun _ => rfl, rfl, le_refl _, ⟨_, rfl⟩, ⟨[], by simp⟩⟩
      · exact absurd hsa (by simp)
    · split at hsa
      · rename_i hord
        split at hsa
        · exact absurd hsa (by simp)
        · rename_i num rest hnum
          split at hsa
          · split at hsa
            · exact absurd hsa (by simp)
            · rename_i d s1 he
              split at hsa
              · exact absurd hsa (by simp)
              · obtain ⟨r, hr, hsa⟩ := Option.bind_eq_some.mp hsa
                refine Preserves.trans (ensureImage_preserves he) ?_
                refine Preserves.trans ?_
                  (Preserves.trans (renderText_preserves hr) (hc _ _ _ hsa))
                have hn : s1.list_item_nums = num :: rest := by
                  rw [ensureImage_nums he, hnum]
                have hty1 : s1.list_types = s.list_types :=
                  (ensureImage_preserves he).ltypes
                refine ⟨rfl, rfl, by simp [hn], by simp [hn], ?_, rfl, le_refl _,
                  ⟨_, rfl⟩, ⟨[], by simp⟩⟩
                intro hho
                exact absurd (by rw [hty1, hlt]; simp [hord] :
                  s1.list_types.head? = some "ordered") hho
          · exact absurd hsa (by simp)
      · simp only [Option.some.injEq] at hsa
        subst hsa
        exact Preserves.refl s

theorem handleOl_preserves
    (hc : ∀ cs s s', hch cs s = some s' → Preserves s s')
    {n : Node} {s s' : ExecState} (h : handleOl cfg hch n s = some s') :
    Preserves s s' := by
  unfold handleOl at h
  obtain ⟨s3, hs3, h⟩ := Option.map_eq_some'.mp h
  subst h
  have h1 := hc _ _ _ hs3
  have hind : s3.indent = s.indent + cfg.list_indent := by
    simpa [newline] using h1.indent
  have hty : s3.list_types = "ordered" :: s.list_types := by
    simpa [newline] using h1.ltypes
  have hnt : s3.list_item_nums.tail = s.list_item_nums := by
    simpa [newline] using h1.nums_tail
  obtain ⟨t, ht⟩ := h1.events
  obtain ⟨l, hl⟩ := h1.links
  refine ⟨?_, ?_, ?_, ?_, ?_, ?_, ?_, ⟨t, ?_⟩, ⟨l, ?_⟩⟩
  · simp [newline, hind]
  · simp [newline, hty]
  · simp [newline, hnt]
  · simp [newline, hnt]
  · intro hho
    simp [newline, hnt]
  · simpa [newline] using h1.wspec
  · simpa [newline] using h1.idx
  · simp only [newline] at ht ⊢; simpa using ht
  · simp only [newline] at hl ⊢; simpa using hl

theorem handleUl_preserves
    (hc : ∀ cs s s', hch cs s = some s' → Preserves s s')
    {n : Node} {s s' : ExecState} (h : handleUl cfg hch n s = some s') :
    Preserves s s' := by
  unfold handleUl at h
  obtain ⟨s3, hs3, h⟩ := Option.map_eq_some'.mp h
  subst h
  have h1 := hc _ _ _ hs3
  have hind : s3.indent = s.indent + cfg.list_indent := by
    simpa [newline] using h1.indent
  have hty : s3.list_types = "unordered" :: s.list_types := by
    simpa [newline] using h1.ltypes
  obtain ⟨t, ht⟩ := h1.events
  obtain ⟨l, hl⟩ := h1.links
  refine ⟨?_, ?_, ?_, ?_, ?_, ?_, ?_, ⟨t, ?_⟩, ⟨l, ?_⟩⟩
  · simp [newline, hind]
  · simp [newline, hty]
  · simpa [newline] using h1.nums_len
  · simpa [newline] using h1.nums_tail
  · intro hho
    have h5 := h1.nums_cond (by simp [newline])
    simp only [newline] at h5 ⊢
    simpa using h5
  · simpa [newline] using h1.wspec
  · simpa [newline] using h1.idx
  · simp only [newline] at ht ⊢; simpa using ht
  · simp only [newline] at hl ⊢; simpa using hl

set_option maxHeartbeats 1000000 in
theorem handleNodeVia_preserves
    (hc : ∀ cs s s', hch cs s = some s' → Preserves s s')
    {n : Node} {s s' : ExecState} (h : handleNodeVia m cfg hch n s = some s') :
    Preserves s s' := by
  unfold handleNodeVia at h
  by_cases h1 : n.tag = "a"
  · rw [if_pos h1] at h; exact handleA_preserves hc h
  rw [if_neg h1] at h
  by_cases h2 : n.tag = "code"
  · rw [if_pos h2] at h; exact handleCode_preserves hc h
  rw [if_neg h2] at h
  by_cases h3 : n.tag = "blockquote"
  · rw [if_pos h3] at h; exact handleBlockquote_preserves hc h
  rw [if_neg h3] at h
  by_cases h4 : n.tag = "em"
  · rw [if_pos h4] at h; exact handleEm_preserves hc h
  rw [if_neg h4] at h
  by_cases h5 : n.tag = "div"
  · rw [if_pos h5] at h; exact handleDiv_preserves hc h
  rw [if_neg h5] at h
  by_cases h6 : n.tag = "h1" ∨ n.tag = "h2" ∨ n.tag = "h3" ∨ n.tag = "h4" ∨
      n.tag = "h5" ∨ n.tag = "h6"
  · rw [if_pos h6] at h; exact handleH_preserves h
  rw [if_neg h6] at h
  by_cases h7 : n.tag = "hr"
  · rw [if_pos h7] at h; exact handleHr_preserves h
  rw [if_neg h7] at h
  by_cases h8 : n.tag = "li"
  · rw [if_pos h8] at h; exact handleLi_preserves hc h
  rw [if_neg h8] at h
  by_cases h9 : n.tag = "ol"
  · rw [if_pos h9] at h; exact handleOl_preserves hc h
  rw [if_neg h9] at h
  by_cases h10 : n.tag = "p"
  · rw [if_pos h10] at h; exact handleP_preserves hc h
  rw [if_neg h10] at h
  by_cases h11 : n.tag = "pre"
  · rw [if_pos h11] at h; exact handlePre_preserves hc h
  rw [if_neg h11] at h
  by_cases h12 : n.tag = "strong"
  · rw [if_pos h12] at h; exact handleStrong_preserves hc h
  rw [if_neg h12] at h
  by_cases h13 : n.tag = "ul"
  · rw [if_pos h13] at h; exact handleUl_preserves hc h
  rw [if_neg h13] at h
  exact handleUnknown_preserves hc h

theorem handleChildrenVia_preserves
    {hn : Node → ExecState → Option ExecState}
    (h1 : ∀ n s s', hn n s = some s' → Preserves s s') :
    ∀ cs s s', handleChildrenVia hn cs s = some s' → Preserves s s' := by
  intro cs
  induction cs with
  | nil =>
      intro s s' h
      simp only [handleChildrenVia, Option.some.injEq] at h
      subst h
      exact Preserves.refl s
  | cons c rest ih =>
      intro s s' h
      simp only [handleChildrenVia] at h
      obtain ⟨sm, hm, h⟩ := Option.bind_eq_some.mp h
      exact Preserves.trans (h1 _ _ _ hm) (ih _ _ h)

/-- Every successful `handle_children` call preserves the walk
invariants. -/
theorem handleChildren_preserves :
    ∀ (f : Nat) (cs : List Node) (s s' : ExecState),
      handleChildren m cfg f cs s = some s' → Preserves s s' := by
  intro f
  induction f with
  | zero =>
      intro cs s s' h
      cases cs with
      | nil =>
          simp only [handleChildren, Option.some.injEq] at h
          subst h
          exact Preserves.refl s
      | cons c rest => simp [handleChildren] at h
  | succ f ih =>
      intro cs s s' h
      simp only [handleChildren] at h
      exact handleChildrenVia_preserves (fun n s s' hn => handleNodeVia_preserves ih hn) cs s s' h

/-- Every successful `handle_node` call preserves the walk invariants. -/
theorem handleNode_preserves {f : Nat} {n : Node} {s s' : ExecState}
    (h : handleNode m cfg f n s = some s') : Preserves s s' :=
  handleNodeVia_preserves (handleChildren_preserves f) h

end HandlerProofs

/-! ## Exact ordinal-stack preservation for li-shielded subtrees -/


section NumsProofs

variable {m : Font → String → Int × Int} {cfg : Config}

theorem wrapLoop_nums {font : Font} {color : Color} {eb : Bool} {parts : List String} :
    ∀ (fuel startI : Nat) (draw : Option Unit) (blocks : List Block) (s : ExecState)
      {bs : List Block} {s' : ExecState},
      wrapLoop m font color eb parts fuel startI draw blocks s = some (bs, s') →
      s'.list_item_nums = s.list_item_nums := by
  intro fuel
  induction fuel with
  | zero =>
      intro startI draw blocks s bs s' hw
      simp only [wrapLoop, Option.some.injEq, Prod.mk.injEq] at hw
      obtain ⟨rfl, rfl⟩ := hw
      rfl
  | succ fuel ih =>
      intro startI draw blocks s bs s' hw
      cases draw with
      | none =>
          simp only [wrapLoop] at hw
          split at hw
          · exact absurd hw (by simp)
          · simp only [Option.some.injEq, Prod.mk.injEq] at hw
            obtain ⟨rfl, rfl⟩ := hw
            rfl
      | some u =>
          simp only [wrapLoop] at hw
          split at hw
          · split at hw
            · exact absurd hw (by simp)
            · rename_i d s1 he
              split at hw
              · exact absurd hw (by simp)
              · rw [ih _ _ _ _ hw]
                have h1 := ensureImage_nums he
                repeat' split
                all_goals simpa [newline] using h1
          · simp only [Option.some.injEq, Prod.mk.injEq] at hw
            obtain ⟨rfl, rfl⟩ := hw
            rfl

theorem preLines_nums {font : Font} {color : Color} :
    ∀ (lines : List String) (blocks : List Block) (s : ExecState)
      {bs : List Block} {s' : ExecState},
      preLines m font color lines blocks s = some (bs, s') →
      s'.list_item_nums = s.list_item_nums := by
  intro lines
  induction lines with
  | nil =>
      intro blocks s bs s' hp
      simp only [preLines, Option.some.injEq, Prod.mk.injEq] at hp
      obtain ⟨rfl, rfl⟩ := hp
      rfl
  | cons line rest ih =>
      intro blocks s bs s' hp
      simp only [preLines] at hp
      split at hp
      · split at hp
        · exact absurd hp (by simp)
        · rename_i d s1 he
          split at hp
          · exact absurd hp (by simp)
          · rw [ih _ _ hp]
            simpa [newline] using ensureImage_nums he
      · exact absurd hp (by simp)

theorem renderText_nums {text : Option String} {color : Color} {eb : Bool}
    {fontArg : Option Font} {s : ExecState} {r : Option (List Block) × ExecState}
    (h : renderText m text color eb fontArg s = some r) :
    r.2.list_item_nums = s.list_item_nums := by
  unfold renderText at h
  cases text with
  | none =>
      simp only [Option.some.injEq] at h
      subst h
      rfl
  | some t =>
      simp only at h
      split at h
      · cases hp : preLines m (fontArg.getD Font.default) color (splitChar '\n' t) [] s with
        | none => rw [hp] at h; exact absurd h (by simp)
        | some p =>
            rw [hp] at h
            simp only [Option.some.injEq] at h
            subst h
            exact preLines_nums _ _ _ hp
      · cases hw : wrapLoop m (fontArg.getD Font.default) color eb
            (splitChar ' ' (compactWhitespace t)) (splitChar ' ' (compactWhitespace t)).length.succ
            0 (if s.hasImage then some () else none) [] s with
        | none => rw [hw] at h; exact absurd h (by simp)
        | some p =>
            rw [hw] at h
            simp only [Option.some.injEq] at h
            subst h
            exact wrapLoop_nums _ _ _ _ _ hw

variable {hch : List Node → ExecState → Option ExecState}

theorem handleA_nums {n : Node} {s s' : ExecState}
    (hcn : ∀ s2 s2', hch n.children s2 = some s2' →
      s2'.list_item_nums = s2.list_item_nums)
    (h : handleA m cfg hch n s = some s') :
    s'.list_item_nums = s.list_item_nums := by
  unfold handleA at h
  split at h <;>
  · obtain ⟨r, hr, h⟩ := Option.bind_eq_some.mp h
    obtain ⟨s2, hs2, h⟩ := Option.bind_eq_some.mp h
    obtain ⟨r2, hr2, h⟩ := Option.map_eq_some'.mp h
    subst h
    rw [renderText_nums hr2, hcn _ _ hs2]
    exact renderText_nums hr

theorem handleCode_nums {n : Node} {s s' : ExecState}
    (hcn : ∀ s2 s2', hch n.children s2 = some s2' →
      s2'.list_item_nums = s2.list_item_nums)
    (h : handleCode m cfg hch n s = some s') :
    s'.list_item_nums = s.list_item_nums := by
  unfold handleCode at h
  obtain ⟨r, hr, h⟩ := Option.bind_eq_some.mp h
  obtain ⟨s2, hs2, h⟩ := Option.bind_eq_some.mp h
  obtain ⟨r2, hr2, h⟩ := Option.map_eq_some'.mp h
  subst h
  rw [renderText_nums hr2, hcn _ _ hs2]
  exact renderText_nums hr

theorem handleEm_nums {n : Node} {s s' : ExecState}
    (hcn : ∀ s2 s2', hch n.children s2 = some s2' →
      s2'.list_item_nums = s2.list_item_nums)
    (h : handleEm m cfg hch n s = some s') :
    s'.list_item_nums = s.list_item_nums := by
  unfold handleEm at h
  obtain ⟨r, hr, h⟩ := Option.bind_eq_some.mp h
  obtain ⟨s2, hs2, h⟩ := Option.bind_eq_some.mp h
  obtain ⟨r2, hr2, h⟩ := Option.map_eq_some'.mp h
  subst h
  rw [renderText_nums hr2, hcn _ _ hs2]
  exact renderText_nums hr

theorem handleStrong_nums {n : Node} {s s' : ExecState}
    (hcn : ∀ s2 s2', hch n.children s2 = some s2' →
      s2'.list_item_nums = s2.list_item_nums)
    (h : handleStrong m cfg hch n s = some s') :
    s'.list_item_nums = s.list_item_nums := by
  unfold handleStrong at h
  obtain ⟨r, hr, h⟩ := Option.bind_eq_some.mp h
  obtain ⟨s2, hs2, h⟩ := Option.bind_eq_some.mp h
  obtain ⟨r2, hr2, h⟩ := Option.map_eq_some'.mp h
  subst h
  rw [renderText_nums hr2, hcn _ _ hs2]
  exact renderText_nums hr

theorem handleP_nums {n : Node} {s s' : ExecState}
    (hcn : ∀ s2 s2', hch n.children s2 = some s2' →
      s2'.list_item_nums = s2.list_item_nums)
    (h : handleP m cfg hch n s = some s') :
    s'.list_item_nums = s.list_item_nums := by
  unfold handleP at h
  obtain ⟨r, hr, h⟩ := Option.bind_eq_some.mp h
  obtain ⟨s2, hs2, h⟩ := Option.bind_eq_some.mp h
  obtain ⟨r2, hr2, h⟩ := Option.map_eq_some'.mp h
  subst h
  simp only [newline]
  rw [renderText_nums hr2, hcn _ _ hs2]
  exact renderText_nums hr

theorem handleBlockquote_nums {n : Node} {s s' : ExecState}
    (hcn : ∀ s2 s2', hch n.children s2 = some s2' →
      s2'.list_item_nums = s2.list_item_nums)
    (h : handleBlockquote cfg hch n s = some s') :
    s'.list_item_nums = s.list_item_nums := by
  unfold handleBlockquote at h
  obtain ⟨s2, hs2, h⟩ := Option.map_eq_some'.mp h
  subst h
  simpa [newline] using hcn _ _ hs2

theorem handlePre_nums {n : Node} {s s' : ExecState}
    (hcn : ∀ s2 s2', hch n.children s2 = some s2' →
      s2'.list_item_nums = s2.list_item_nums)
    (h : handlePre cfg hch n s = some s') :
    s'.list_item_nums = s.list_item_nums := by
  unfold handlePre at h
  obtain ⟨s2, hs2, h⟩ := Option.map_eq_some'.mp h
  subst h
  simpa [newline] using hcn _ _ hs2

theorem handleDiv_nums {n : Node} {s s' : ExecState}
    (hcn : ∀ s2 s2', hch n.children s2 = some s2' →
      s2'.list_item_nums = s2.list_item_nums)
    (h : handleDiv hch n s = some s') :
    s'.list_item_nums = s.list_item_nums := by
  unfold handleDiv at h
  obtain ⟨s2, hs2, h⟩ := Option.map_eq_some'.mp h
  subst h
  have h2 : s2.list_item_nums = s.list_item_nums := by
    have := hcn _ _ hs2
    split at this <;> simpa [newline] using this
  split <;> simpa [newline] using h2

theorem handleUnknown_nums {n : Node} {s s' : ExecState}
    (hcn : ∀ s2 s2', hch n.children s2 = some s2' →
      s2'.list_item_nums = s2.list_item_nums)
    (h : handleUnknown hch n s = some s') :
    s'.list_item_nums = s.list_item_nums := by
  unfold handleUnknown at h
  simpa using hcn _ _ h

theorem handleH_nums {n : Node} {s s' : ExecState}
    (h : handleH m cfg n s = some s') :
    s'.list_item_nums = s.list_item_nums := by
  unfold handleH at h
  obtain ⟨r, hr, h⟩ := Option.map_eq_some'.mp h
  subst h
  simpa [newline] using renderText_nums hr

theorem handleHr_nums {s s' : ExecState}
    (h : handleHr cfg s = some s') :
    s'.list_item_nums = s.list_item_nums := by
  simp only [handleHr] at h
  split at h
  · simp only [Option.some.injEq] at h
    subst h
    simp [newline]
  · exact absurd h (by simp)

theorem handleOl_nums {n : Node} {s s' : ExecState}
    (hcP : ∀ cs s s', hch cs s = some s' → Preserves s s')
    (h : handleOl cfg hch n s = some s') :
    s'.list_item_nums = s.list_item_nums := by
  unfold handleOl at h
  obtain ⟨s3, hs3, h⟩ := Option.map_eq_some'.mp h
  subst h
  have h1 := hcP _ _ _ hs3
  have hnt : s3.list_item_nums.tail = s.list_item_nums := by
    simpa [newline] using h1.nums_tail
  simp [newline, hnt]

theorem handleUl_nums {n : Node} {s s' : ExecState}
    (hcP : ∀ cs s s', hch cs s = some s' → Preserves s s')
    (h : handleUl cfg hch n s = some s') :
    s'.list_item_nums = s.list_item_nums := by
  unfold handleUl at h
  obtain ⟨s3, hs3, h⟩ := Option.map_eq_some'.mp h
  subst h
  have h1 := hcP _ _ _ hs3
  have h5 := h1.nums_cond (by simp [newline])
  simp only [newline] at h5 ⊢
  simpa using h5

theorem handleNodeVia_nums_shielded
    (hcP : ∀ cs s s', hch cs s = some s' → Preserves s s')
    (hcS : ∀ cs s s', (∀ c ∈ cs, Shielded c) → hch cs s = some s' →
      s'.list_item_nums = s.list_item_nums)
    {n : Node} {s s' : ExecState} (hsn : Shielded n)
    (h : handleNodeVia m cfg hch n s = some s') :
    s'.list_item_nums = s.list_item_nums := by
  have hcn : (∀ c ∈ n.children, Shielded c) →
      ∀ s2 s2', hch n.children s2 = some s2' →
        s2'.list_item_nums = s2.list_item_nums :=
    fun hsc s2 s2' h2 => hcS _ _ _ hsc h2
  cases hsn with
  | list t x l a cs hol =>
      cases hol with
      | inl h1 =>
          subst h1
          simp only [handleNodeVia, Node.tag] at h
          norm_num at h
          exact handleOl_nums hcP h
      | inr h1 =>
          subst h1
          simp only [handleNodeVia, Node.tag] at h
          norm_num at h
          exact handleUl_nums hcP h
  | other t x l a cs hli hol hcs =>
      have hcn' := hcn (by simpa [Node.children] using hcs)
      unfold handleNodeVia at h
      by_cases h1 : Node.tag (.mk t x l a cs) = "a"
      · rw [if_pos h1] at h; exact handleA_nums hcn' h
      rw [if_neg h1] at h
      by_cases h2 : Node.tag (.mk t x l a cs) = "code"
      · rw [if_pos h2] at h; exact handleCode_nums hcn' h
      rw [if_neg h2] at h
      by_cases h3 : Node.tag (.mk t x l a cs) = "blockquote"
      · rw [if_pos h3] at h; exact handleBlockquote_nums hcn' h
      rw [if_neg h3] at h
      by_cases h4 : Node.tag (.mk t x l a cs) = "em"
      · rw [if_pos h4] at h; exact handleEm_nums hcn' h
      rw [if_neg h4] at h
      by_cases h5 : Node.tag (.mk t x l a cs) = "div"
      · rw [if_pos h5] at h; exact handleDiv_nums hcn' h
      rw [if_neg h5] at h
      by_cases h6 : Node.tag (.mk t x l a cs) = "h1" ∨ Node.tag (.mk t x l a cs) = "h2" ∨
          Node.tag (.mk t x l a cs) = "h3" ∨ Node.tag (.mk t x l a cs) = "h4" ∨
          Node.tag (.mk t x l a cs) = "h5" ∨ Node.tag (.mk t x l a cs) = "h6"
      · rw [if_pos h6] at h; exact handleH_nums h
      rw [if_neg h6] at h
      by_cases h7 : Node.tag (.mk t x l a cs) = "hr"
      · rw [if_pos h7] at h; exact handleHr_nums h
      rw [if_neg h7] at h
      by_cases h8 : Node.tag (.mk t x l a cs) = "li"
      · exact absurd h8 hli
      rw [if_neg h8] at h
      by_cases h9 : Node.tag (.mk t x l a cs) = "ol"
      · exact absurd (Or.inl h9) hol
      rw [if_neg h9] at h
      by_cases h10 : Node.tag (.mk t x l a cs) = "p"
      · rw [if_pos h10] at h; exact handleP_nums hcn' h
      rw [if_neg h10] at h
      by_cases h11 : Node.tag (.mk t x l a cs) = "pre"
      · rw [if_pos h11] at h; exact handlePre_nums hcn' h
      rw [if_neg h11] at h
      by_cases h12 : Node.tag (.mk t x l a cs) = "strong"
      · rw [if_pos h12] at h; exact handleStrong_nums hcn' h
      rw [if_neg h12] at h
      by_cases h13 : Node.tag (.mk t x l a cs) = "ul"
      · exact absurd (Or.inr h13) hol
      rw [if_neg h13] at h
      exact handleUnknown_nums hcn' h

/-- Walking a li-shielded subtree (or a list of them) leaves the ordinal
stack exactly as it was. -/
theorem walk_nums_shielded :
    ∀ f : Nat,
      (∀ cs s s', (∀ c ∈ cs, Shielded c) → handleChildren m cfg f cs s = some s' →
        s'.list_item_nums = s.list_item_nums) ∧
      (∀ n s s', Shielded n → handleNode m cfg f n s = some s' →
        s'.list_item_nums = s.list_item_nums) := by
  intro f
  induction f with
  | zero =>
      have hcS : ∀ cs s s', (∀ c ∈ cs, Shielded c) →
          handleChildren m cfg 0 cs s = some s' →
          s'.list_item_nums = s.list_item_nums := by
        intro cs s s' hsc h
        cases cs with
        | nil =>
            simp only [handleChildren, Option.some.injEq] at h
            subst h
            rfl
        | cons c rest => simp [handleChildren] at h
      exact ⟨hcS, fun n s s' hsn h =>
        handleNodeVia_nums_shielded (handleChildren_preserves 0) hcS hsn h⟩
  | succ f ih =>
      have hcS : ∀ cs s s', (∀ c ∈ cs, Shielded c) →
          handleChildren m cfg (f + 1) cs s = some s' →
          s'.list_item_nums = s.list_item_nums := by
        intro cs
        induction cs with
        | nil =>
            intro s s' hsc h
            simp only [handleChildren, handleChildrenVia, Option.some.injEq] at h
            subst h
            rfl
        | cons c rest ihc =>
            intro s s' hsc h
            simp only [handleChildren, handleChildrenVia] at h
            obtain ⟨sm, hm, h⟩ := Option.bind_eq_some.mp h
            have hend : s'.list_item_nums = sm.list_item_nums := by
              have := ihc sm s' (fun c hc => hsc c (List.mem_cons_of_mem _ hc))
              simp only [handleChildren] at this
              exact this h
            rw [hend]
            exact ih.2 c s sm (hsc c (List.mem_cons_self _ _)) hm
      exact ⟨hcS, fun n s s' hsn h =>
        handleNodeVia_nums_shielded (handleChildren_preserves (f + 1)) hcS hsn h⟩

end NumsProofs

section LinksProofs

variable {m : Font → String → Int × Int} {cfg : Config}

theorem applyWidthSpec_links (h : Int) (s : ExecState) :
    (applyWidthSpec h s).links = s.links := by
  unfold applyWidthSpec
  split
  · split <;> rfl
  · rfl

theorem ensureImage_links {h : Int} {s : ExecState} {d : Option Unit} {s' : ExecState}
    (he : ensureImage h s = some (d, s')) : s'.links = s.links := by
  simp only [ensureImage] at he
  split at he
  · split at he
    · split at he
      · obtain ⟨rfl, rfl⟩ := Prod.mk.injEq .. ▸ (Option.some.injEq .. ▸ he)
        exact applyWidthSpec_links h s
      · obtain ⟨rfl, rfl⟩ := Prod.mk.injEq .. ▸ (Option.some.injEq .. ▸ he)
        simp only [newImageBlock, saveImageBlock]
        split <;> exact applyWidthSpec_links h s
    · obtain ⟨rfl, rfl⟩ := Prod.mk.injEq .. ▸ (Option.some.injEq .. ▸ he)
      exact applyWidthSpec_links h s
  · exact absurd he (by simp)

theorem wrapLoop_links {font : Font} {color : Color} {eb : Bool} {parts : List String} :
    ∀ (fuel startI : Nat) (draw : Option Unit) (blocks : List Block) (s : ExecState)
      {bs : List Block} {s' : ExecState},
      wrapLoop m font color eb parts fuel startI draw blocks s = some (bs, s') →
      s'.links = s.links := by
  intro fuel
  induction fuel with
  | zero =>
      intro startI draw blocks s bs s' hw
      simp only [wrapLoop, Option.some.injEq, Prod.mk.injEq] at hw
      obtain ⟨rfl, rfl⟩ := hw
      rfl
  | succ fuel ih =>
      intro startI draw blocks s bs s' hw
      cases draw with
      | none =>
          simp only [wrapLoop] at hw
          split at hw
          · exact absurd hw (by simp)
          · simp only [Option.some.injEq, Prod.mk.injEq] at hw
            obtain ⟨rfl, rfl⟩ := hw
            rfl
      | some u =>
          simp only [wrapLoop] at hw
          split at hw
          · split at hw
            · exact absurd hw (by simp)
            · rename_i d s1 he
              split at hw
              · exact absurd hw (by simp)
              · rw [ih _ _ _ _ hw]
                have h1 := ensureImage_links he
                repeat' split
                all_goals simpa [newline] using h1
          · simp only [Option.some.injEq, Prod.mk.injEq] at hw
            obtain ⟨rfl, rfl⟩ := hw
            rfl

theorem preLines_links {font : Font} {color : Color} :
    ∀ (lines : List String) (blocks : List Block) (s : ExecState)
      {bs : List Block} {s' : ExecState},
      preLines m font color lines blocks s = some (bs, s') → s'.links = s.links := by
  intro lines
  induction lines with
  | nil =>
      intro blocks s bs s' hp
      simp only [preLines, Option.some.injEq, Prod.mk.injEq] at hp
      obtain ⟨rfl, rfl⟩ := hp
      rfl
  | cons line rest ih =>
      intro blocks s bs s' hp
      simp only [preLines] at hp
      split at hp
      · split at hp
        · exact absurd hp (by simp)
        · rename_i d s1 he
          split at hp
          · exact absurd hp (by simp)
          · rw [ih _ _ hp]
            simpa [newline] using ensureImage_links he
      · exact absurd hp (by simp)

theorem renderText_links {text : Option String} {color : Color} {eb : Bool}
    {fontArg : Option Font} {s : ExecState} {r : Option (List Block) × ExecState}
    (h : renderText m text color eb fontArg s = some r) : r.2.links = s.links := by
  unfold renderText at h
  cases text with
  | none =>
      simp only [Option.some.injEq] at h
      subst h
      rfl
  | some t =>
      simp only at h
      split at h
      · cases hp : preLines m (fontArg.getD Font.default) color (splitChar '\n' t) [] s with
        | none => rw [hp] at h; exact absurd h (by simp)
        | some p =>
            rw [hp] at h
            simp only [Option.some.injEq] at h
            subst h
            exact preLines_links _ _ _ hp
      · cases hw : wrapLoop m (fontArg.getD Font.default) color eb
            (splitChar ' ' (compactWhitespace t)) (splitChar ' ' (compactWhitespace t)).length.succ
            0 (if s.hasImage then some () else none) [] s with
        | none => rw [hw] at h; exact absurd h (by simp)
        | some p =>
            rw [hw] at h
            simp only [Option.some.injEq] at h
            subst h
            exact wrapLoop_links _ _ _ _ _ hw

end LinksProofs


/-! ## The word-wrap width bound (column frozen at the last width-spec entry) -/

theorem applyWidthSpec_frozen {s : ExecState}
    (hf : ¬ s.width_spec_index + 1 < (s.width_spec.length : Int)) (h : Int) :
    applyWidthSpec h s = s := by
  unfold applyWidthSpec
  rw [if_neg hf]

theorem newImageBlock_fields (s : ExecState) :
    (newImageBlock s).events = s.events ∧ (newImageBlock s).end_x = s.end_x ∧
    (newImageBlock s).image_x = s.image_x ∧ (newImageBlock s).width_spec = s.width_spec ∧
    (newImageBlock s).width_spec_index = s.width_spec_index := by
  simp only [newImageBlock, saveImageBlock]
  split <;> exact ⟨rfl, rfl, rfl, rfl, rfl⟩

theorem ensureImage_frozen {h : Int} {s s1 : ExecState}
    (hf : ¬ s.width_spec_index + 1 < (s.width_spec.length : Int))
    (he : ensureImage h s = some (some (), s1)) :
    s1.events = s.events ∧ s1.end_x = s.end_x ∧ s1.image_x = s.image_x ∧
    s1.width_spec = s.width_spec ∧ s1.width_spec_index = s.width_spec_index := by
  simp only [ensureImage, applyWidthSpec_frozen hf] at he
  split at he
  · split at he
    · split at he
      · exact absurd he (by simp)
      · obtain ⟨-, rfl⟩ := Prod.mk.injEq .. ▸ (Option.some.injEq .. ▸ he)
        exact newImageBlock_fields s
    · obtain ⟨-, rfl⟩ := Prod.mk.injEq .. ▸ (Option.some.injEq .. ▸ he)
      exact ⟨rfl, rfl, rfl, rfl, rfl⟩
  · exact absurd he (by simp)

section WrapBound

variable {m : Font → String → Int × Int}

theorem extendIdx_ge {font : Font} {parts : List String} {ix ex : Int} :
    ∀ (fuel startI endI : Nat) (wh : Int × Int),
      endI ≤ (extendIdx m font parts ix ex fuel startI endI wh).1 := by
  intro fuel
  induction fuel with
  | zero => intro startI endI wh; exact le_refl _
  | succ fuel ih =>
      intro startI endI wh
      simp only [extendIdx]
      split
      · split
        · exact le_refl _
        · exact le_trans (Nat.le_succ endI) (ih _ _ _)
      · exact le_refl _

/-- The inner measuring loop only returns an `end_index` beyond
`start_index` when the candidate `parts[startI:endI]` it last accepted
was measured to fit the remaining width. -/
theorem extendIdx_fits {font : Font} {parts : List String} {ix ex : Int} :
    ∀ (fuel startI endI : Nat) (wh : Int × Int),
      (startI < endI →
        ix + (m font (joinSpace ((parts.drop startI).take (endI - startI)))).1 ≤ ex) →
      startI < (extendIdx m font parts ix ex fuel startI endI wh).1 →
      ix + (m font (joinSpace ((parts.drop startI).take
        ((extendIdx m font parts ix ex fuel startI endI wh).1 - startI)))).1 ≤ ex := by
  intro fuel
  induction fuel with
  | zero =>
      intro startI endI wh hinv
      simp only [extendIdx]
      exact hinv
  | succ fuel ih =>
      intro startI endI wh hinv
      simp only [extendIdx]
      split
      · split
        · exact hinv
        · rename_i hover
          exact ih _ _ _ (fun _ => not_lt.mp hover)
      · exact hinv

end WrapBound

@[simp] theorem newline_events (ho : Option Int) (s : ExecState) :
    (newline ho s).events = s.events := rfl

@[simp] theorem newline_end_x (ho : Option Int) (s : ExecState) :
    (newline ho s).end_x = s.end_x := rfl

@[simp] theorem newline_width_spec (ho : Option Int) (s : ExecState) :
    (newline ho s).width_spec = s.width_spec := rfl

@[simp] theorem newline_width_spec_index (ho : Option Int) (s : ExecState) :
    (newline ho s).width_spec_index = s.width_spec_index := rfl

section WrapBoundMain

variable {m : Font → String → Int × Int}

/-- Every `draw.text` event emitted by the word-wrap loop either fits the
remaining column width at the x where it is drawn, or is a single whole
token of the input (the forced overlong-word case).  The hypothesis
freezes the width-spec at its last entry so that `end_x` is constant for
the whole call. -/
theorem wrapLoop_frag_bound {font : Font} {color : Color} {eb : Bool} {parts : List String} :
    ∀ (fuel startI : Nat) (draw : Option Unit) (blocks : List Block) (s : ExecState)
      {bs : List Block} {s' : ExecState},
      wrapLoop m font color eb parts fuel startI draw blocks s = some (bs, s') →
      ¬ s.width_spec_index + 1 < (s.width_spec.length : Int) →
      ∀ e ∈ s'.events.drop s.events.length,
        ∀ x y txt f2 c2, e = Event.drawText x y txt f2 c2 →
          x + (m f2 txt).1 ≤ s.end_x ∨ txt ∈ parts := by
  intro fuel
  induction fuel with
  | zero =>
      intro startI draw blocks s bs s' hw hf
      simp only [wrapLoop, Option.some.injEq, Prod.mk.injEq] at hw
      obtain ⟨rfl, rfl⟩ := hw
      intro e he
      simp [List.drop_length] at he
  | succ fuel ih =>
      intro startI draw blocks s bs s' hw hf
      cases draw with
      | none =>
          simp only [wrapLoop] at hw
          split at hw
          · exact absurd hw (by simp)
          · simp only [Option.some.injEq, Prod.mk.injEq] at hw
            obtain ⟨rfl, rfl⟩ := hw
            intro e he
            simp [List.drop_length] at he
      | some u =>
          simp only [wrapLoop] at hw
          split at hw
          · rename_i hlen
            set ext := extendIdx m font parts s.image_x s.end_x (parts.length + 1)
              startI startI wrapInitWH with hext
            set endI' := (if startI = ext.1 then startI + 1 else ext.1 : Nat) with hendI
            set frag := joinSpace ((parts.drop startI).take (endI' - startI)) with hfrag
            cases he1 : ensureImage ext.2.2 s with
            | none => rw [he1] at hw; exact absurd hw (by simp)
            | some p =>
                obtain ⟨d, s1⟩ := p
                rw [he1] at hw
                cases d with
                | none => simp at hw
                | some uu =>
                    set s2 := { s1 with line_height := max ext.2.2 s1.line_height } with hs2
                    set s3 := { s2 with events := s2.events ++
                      [Event.drawText s2.image_x s2.image_y frag font color] } with hs3
                    set s4 := (if endI' < parts.length then newline none s3
                      else if eb then newline none s3
                      else { s3 with image_x := s3.image_x + (m font frag).1 }) with hs4
                    replace hw : wrapLoop m font color eb parts fuel endI' (some ())
                        (blocks ++ [(s3.image_x, s3.y, (m font frag).1, (m font frag).2)]) s4 =
                        some (bs, s') := hw
                    obtain ⟨hev, hex, hix, hws, hidx⟩ := ensureImage_frozen hf he1
                    have h4ev : s4.events = s.events ++
                        [Event.drawText s2.image_x s2.image_y frag font color] := by
                      rw [hs4]
                      repeat' split
                      all_goals simp [hs3, hs2, hev]
                    have h4ex : s4.end_x = s.end_x := by
                      rw [hs4]
                      repeat' split
                      all_goals simp [hs3, hs2, hex]
                    have h4ws : s4.width_spec = s.width_spec := by
                      rw [hs4]
                      repeat' split
                      all_goals simp [hs3, hs2, hws]
                    have h4idx : s4.width_spec_index = s.width_spec_index := by
                      rw [hs4]
                      repeat' split
                      all_goals simp [hs3, hs2, hidx]
                    have hf4 : ¬ s4.width_spec_index + 1 < (s4.width_spec.length : Int) := by
                      rw [h4idx, h4ws]
                      exact hf
                    have hihall := ih _ _ _ _ hw hf4
                    obtain ⟨t, hts⟩ := (wrapLoop_preserves _ _ _ _ _ hw).events
                    rw [h4ev] at hts
                    intro e he x y txt f2 c2 heq
                    rw [hts, List.append_assoc, List.drop_left] at he
                    rcases List.mem_cons.mp he with hre | het
                    · rw [heq] at hre
                      simp only [Event.drawText.injEq] at hre
                      obtain ⟨rfl, rfl, rfl, rfl, rfl⟩ := hre
                      have hx2 : s2.image_x = s.image_x := by simp [hs2, hix]
                      rw [hx2]
                      by_cases hse : startI = ext.1
                      · right
                        rw [hfrag, hendI, if_pos hse]
                        have hone : startI + 1 - startI = 1 := by omega
                        rw [hone, List.drop_eq_getElem_cons hlen]
                        simp only [List.take_succ_cons, List.take_zero, joinSpace]
                        exact List.getElem_mem hlen
                      · left
                        rw [hfrag, hendI, if_neg hse]
                        have hgt : startI < ext.1 :=
                          lt_of_le_of_ne (by rw [hext]; exact extendIdx_ge _ _ _ _) hse
                        rw [hext] at hgt
                        have hfit := extendIdx_fits (m := m) (parts.length + 1) startI startI
                          wrapInitWH (fun hlt => absurd hlt (lt_irrefl _)) hgt
                        rw [← hext] at hfit
                        exact hfit
                    · have hmem : e ∈ s'.events.drop s4.events.length := by
                        rw [hts, h4ev, List.drop_left]
                        exact het
                      have hres := hihall e hmem x y txt f2 c2 heq
                      rwa [h4ex] at hres
          · simp only [Option.some.injEq, Prod.mk.injEq] at hw
            obtain ⟨rfl, rfl⟩ := hw
            intro e he
            simp [List.drop_length] at he

end WrapBoundMain


section Dispatch

variable {m : Font → String → Int × Int} {cfg : Config}
variable {hch : List Node → ExecState → Option ExecState}

theorem handleNodeVia_li {n : Node} {s : ExecState} (hli : n.tag = "li") :
    handleNodeVia m cfg hch n s = handleLi m cfg hch n s := by
  unfold handleNodeVia
  rw [hli]
  rfl

theorem handleNodeVia_ol {n : Node} {s : ExecState} (hol : n.tag = "ol") :
    handleNodeVia m cfg hch n s = handleOl cfg hch n s := by
  unfold handleNodeVia
  rw [hol]
  rfl

theorem handleNodeVia_ul {n : Node} {s : ExecState} (hul : n.tag = "ul") :
    handleNodeVia m cfg hch n s = handleUl cfg hch n s := by
  unfold handleNodeVia
  rw [hul]
  rfl

theorem handleNodeVia_blockquote {n : Node} {s : ExecState} (hbq : n.tag = "blockquote") :
    handleNodeVia m cfg hch n s = handleBlockquote cfg hch n s := by
  unfold handleNodeVia
  rw [hbq]
  rfl

theorem handleNodeVia_pre {n : Node} {s : ExecState} (hpre : n.tag = "pre") :
    handleNodeVia m cfg hch n s = handlePre cfg hch n s := by
  unfold handleNodeVia
  rw [hpre]
  rfl

theorem handleNodeVia_a {n : Node} {s : ExecState} (ha : n.tag = "a") :
    handleNodeVia m cfg hch n s = handleA m cfg hch n s := by
  unfold handleNodeVia
  rw [ha]
  rfl

theorem handleNodeVia_h {n : Node} {s : ExecState}
    (hh : n.tag = "h1" ∨ n.tag = "h2" ∨ n.tag = "h3" ∨ n.tag = "h4" ∨
      n.tag = "h5" ∨ n.tag = "h6") :
    handleNodeVia m cfg hch n s = handleH m cfg n s := by
  unfold handleNodeVia
  rcases hh with h | h | h | h | h | h <;> rw [h] <;> rfl

end Dispatch

section Ordinals

variable {m : Font → String → Int × Int} {cfg : Config}
variable {hch : List Node → ExecState → Option ExecState}

/-- An ordered `handle_li` draws exactly the current counter as `"{k}."`
in the default font and the configured color, increments the counter by
exactly one, and (for a li-shielded item body) leaves the rest of the
ordinal stack and the list-type stack unchanged. -/
theorem handleLi_ordinal
    (hcP : ∀ cs s s', hch cs s = some s' → Preserves s s')
    (hcS : ∀ cs s s', (∀ c ∈ cs, Shielded c) → hch cs s = some s' →
      s'.list_item_nums = s.list_item_nums)
    {n : Node} {s s' : ExecState} (hsc : ∀ c ∈ n.children, Shielded c)
    {k : Int} {ks : List Int} {ts : List String}
    (hnum : s.list_item_nums = k :: ks) (hty : s.list_types = "ordered" :: ts)
    (h : handleLi m cfg hch n s = some s') :
    s'.list_item_nums = (k + 1) :: ks ∧ s'.list_types = s.list_types ∧
    ∃ t, s'.events = s.events ++ t ∧
      ∃ x y, Event.drawText x y (toString k ++ ".") Font.default cfg.color ∈ t := by
  unfold handleLi at h
  split at h
  · rename_i hnil
    rw [hty] at hnil
    exact absurd hnil (by simp)
  · rename_i lt rest0 hlt
    have hlt' : lt = "ordered" ∧ rest0 = ts := by
      rw [hty] at hlt
      exact ⟨(List.cons.injEq .. ▸ hlt).1.symm, (List.cons.injEq .. ▸ hlt).2.symm⟩
    obtain ⟨rfl, rfl⟩ := hlt'
    simp only at h
    obtain ⟨sa, hsa, h⟩ := Option.map_eq_some'.mp h
    subst h
    rw [hnum] at hsa
    replace hsa : (if s.hasImage = true then
        match ensureImage (m Font.default (toString k)).2 s with
        | none => none
        | some (d, s1) =>
          match d with
          | none => none
          | some _ =>
            (renderText m n.text cfg.color true none
              { s1 with
                events := s1.events ++
                  [Event.drawText (s1.image_x - (m Font.default (toString k)).1 -
                    cfg.bullet_outdent) s1.image_y (toString k ++ ".") Font.default cfg.color],
                list_item_nums := (k + 1) :: ks }).bind
            fun r => hch n.children r.2
      else none) = some sa := hsa
    split at hsa
    · split at hsa
      · exact absurd hsa (by simp)
      · rename_i d s1 he
        split at hsa
        · exact absurd hsa (by simp)
        · obtain ⟨r, hr, hsa⟩ := Option.bind_eq_some.mp hsa
          have hpe := ensureImage_preserves he
          have hpr := renderText_preserves hr
          have hpc := hcP _ _ _ hsa
          have hnr : r.2.list_item_nums = (k + 1) :: ks := by
            rw [renderText_nums hr]
          have hna : sa.list_item_nums = (k + 1) :: ks := by
            rw [hcS _ _ _ (by simpa using hsc) hsa, hnr]
          refine ⟨by simpa [newline] using hna, ?_, ?_⟩
          · have h1 : sa.list_types = s.list_types := by
              rw [hpc.ltypes, hpr.ltypes]
              exact hpe.ltypes
            simpa [newline] using h1
          · obtain ⟨t0, ht0⟩ := hpe.events
            obtain ⟨t1, ht1⟩ := hpr.events
            obtain ⟨t2, ht2⟩ := hpc.events
            refine ⟨t0 ++ ([Event.drawText (s1.image_x - (m Font.default (toString k)).1 -
              cfg.bullet_outdent) s1.image_y (toString k ++ ".") Font.default cfg.color] ++
              (t1 ++ t2)), ?_, ?_⟩
            · have hev : (newline (some cfg.list_item_margin_bottom) sa).events = sa.events := rfl
              rw [hev, ht2, ht1]
              simp only [ht0]
              simp
            · exact ⟨s1.image_x - (m Font.default (toString k)).1 - cfg.bullet_outdent,
                s1.image_y, by simp⟩
    · exact absurd hsa (by simp)

/-- Folding ordered `handle_li` items: the counter advances by one per
item and the drawn ordinals are exactly `k, k+1, ...` in order. -/
theorem items_ordinals
    (hcP : ∀ cs s s', hch cs s = some s' → Preserves s s')
    (hcS : ∀ cs s s', (∀ c ∈ cs, Shielded c) → hch cs s = some s' →
      s'.list_item_nums = s.list_item_nums) :
    ∀ (items : List Node) (s s' : ExecState) (k : Int) (ks : List Int) (ts : List String),
      (∀ c ∈ items, c.tag = "li" ∧ ∀ g ∈ c.children, Shielded g) →
      s.list_item_nums = k :: ks → s.list_types = "ordered" :: ts →
      handleChildrenVia (handleNodeVia m cfg hch) items s = some s' →
      s'.list_item_nums = (k + items.length) :: ks ∧
      ∃ t sub, s'.events = s.events ++ t ∧ List.Sublist sub t ∧
        List.Forall₂ (fun i e => ∃ x y,
          e = Event.drawText x y (toString i ++ ".") Font.default cfg.color)
          (ordinalSeq k items.length) sub := by
  intro items
  induction items with
  | nil =>
      intro s s' k ks ts hit hnum hty h
      simp only [handleChildrenVia, Option.some.injEq] at h
      subst h
      refine ⟨by simpa using hnum, [], [], by simp, List.Sublist.refl _, ?_⟩
      simp [ordinalSeq]
  | cons c rest ih =>
      intro s s' k ks ts hit hnum hty h
      simp only [handleChildrenVia] at h
      obtain ⟨sm, hm, h⟩ := Option.bind_eq_some.mp h
      rw [handleNodeVia_li (hit c (List.mem_cons_self _ _)).1] at hm
      obtain ⟨hnm, htym, tC, htC, xo, yo, hoC⟩ :=
        handleLi_ordinal hcP hcS (hit c (List.mem_cons_self _ _)).2 hnum hty hm
      obtain ⟨hnend, tR, subR, htR, hsubR, hfaR⟩ :=
        ih sm s' (k + 1) ks ts (fun c' hc' => hit c' (List.mem_cons_of_mem _ hc'))
          hnm (htym.trans hty) h
      constructor
      · rw [hnend]
        congr 1
        simp only [List.length_cons]
        push_cast
        ring
      · refine ⟨tC ++ tR, Event.drawText xo yo (toString k ++ ".") Font.default cfg.color :: subR,
          ?_, ?_, ?_⟩
        · rw [htR, htC]
          simp
        · exact List.Sublist.append (List.singleton_sublist.mpr hoC) hsubR
        · simp only [List.length_cons, ordinalSeq]
          exact List.Forall₂.cons ⟨xo, yo, rfl⟩ hfaR

end Ordinals

/-! ## Support lemmas for the image-width and assembly claims -/

theorem maxFold_spec :
    ∀ (ws : List (Int × Int × Int)) (acc : Int × Int × Int),
      (ws.foldl (fun acc x => if x.2.2 > acc.2.2 then x else acc) acc = acc ∨
        ws.foldl (fun acc x => if x.2.2 > acc.2.2 then x else acc) acc ∈ ws) ∧
      acc.2.2 ≤ (ws.foldl (fun acc x => if x.2.2 > acc.2.2 then x else acc) acc).2.2 ∧
      ∀ e ∈ ws, e.2.2 ≤ (ws.foldl (fun acc x => if x.2.2 > acc.2.2 then x else acc) acc).2.2 := by
  intro ws
  induction ws with
  | nil => intro acc; exact ⟨Or.inl rfl, le_refl _, by simp⟩
  | cons x t ih =>
      intro acc
      simp only [List.foldl_cons]
      obtain ⟨hmem, hacc, hall⟩ := ih (if x.2.2 > acc.2.2 then x else acc)
      have hax : acc.2.2 ≤ (if x.2.2 > acc.2.2 then x else acc).2.2 := by
        split
        · omega
        · exact le_refl _
      have hxx : x.2.2 ≤ (if x.2.2 > acc.2.2 then x else acc).2.2 := by
        split
        · exact le_refl _
        · omega
      refine ⟨?_, le_trans hax hacc, ?_⟩
      · rcases hmem with hm | hm
        · rw [hm]
          split
          · exact Or.inr (List.mem_cons_self _ _)
          · exact Or.inl rfl
        · exact Or.inr (List.mem_cons_of_mem _ hm)
      · intro e he
        rcases List.mem_cons.mp he with rfl | he
        · exact le_trans hxx hacc
        · exact hall e he

theorem foldl_add_shift (l : List Int) :
    ∀ a : Int, l.foldl (fun x y => x + y) a = a + l.foldl (fun x y => x + y) 0 := by
  induction l with
  | nil => intro a; simp
  | cons b t ih =>
      intro a
      simp only [List.foldl_cons]
      rw [ih (a + b), ih (0 + b)]
      ring

theorem pasteOffsets_getD :
    ∀ (hs : List Int) (y : Int) (i : Nat), i < hs.length →
      (pasteOffsets hs y).getD i (0, 0) =
        (y + (hs.take i).foldl (fun a b => a + b) 0, hs.getD i 0) := by
  intro hs
  induction hs with
  | nil => intro y i hi; simp at hi
  | cons h t ih =>
      intro y i hi
      cases i with
      | zero => simp [pasteOffsets]
      | succ i =>
          simp only [pasteOffsets, List.getD_cons_succ, List.take_succ_cons, List.foldl_cons]
          rw [ih (y + h) i (by simpa using hi)]
          rw [foldl_add_shift (t.take i) (0 + h)]
          congr 1
          ring


/-! ## Small projection lemmas -/

theorem getImage_width (s : ExecState) : (getImage s).1.width = s.image_width := by
  simp only [getImage, saveImageBlock]
  split <;> rfl

theorem applyWidthSpec_image_width (h : Int) (s : ExecState) :
    (applyWidthSpec h s).image_width = s.image_width := by
  unfold applyWidthSpec
  split
  · split <;> rfl
  · rfl

/-! ## The claims -/

/-- Claim C1, counterexample: for the width-spec `[(0, 100, 200)]` the
constructor sets the final image width to the maximum *width field*
(200), not the maximum column right-edge (100 + 200 = 300) the claim
computes. -/
theorem C1_width_counterexample :
    ∃ s, initState [((0 : Int), (100 : Int), (200 : Int))] = some s ∧
      (getImage s).1.width = 200 ∧ ¬((100 : Int) + 200 = 200) :=
  ⟨_, rfl, rfl, by decide⟩

/-- Claim C1 (corrected): the width of the final output image equals the
maximum over all width-spec entries of the *width* field (the third
tuple component), for every non-empty width-spec. -/
theorem C1_width_amended {ws : List (Int × Int × Int)} {s : ExecState}
    (h : initState ws = some s) :
    ∃ e ∈ ws, (getImage s).1.width = e.2.2 ∧ ∀ e2 ∈ ws, e2.2.2 ≤ e.2.2 := by
  unfold initState at h
  cases ws with
  | nil => simp [maxByThird] at h
  | cons w t =>
      simp only [maxByThird, Option.some.injEq] at h
      subst h
      rw [getImage_width, applyWidthSpec_image_width]
      obtain ⟨hmem, hw, hall⟩ := maxFold_spec t w
      refine ⟨t.foldl (fun acc x => if x.2.2 > acc.2.2 then x else acc) w, ?_, rfl, ?_⟩
      · rcases hmem with hm | hm
        · rw [hm]; exact List.mem_cons_self _ _
        · exact List.mem_cons_of_mem _ hm
      · intro e2 he2
        rcases List.mem_cons.mp he2 with rfl | he2
        · exact hw
        · exact hall e2 he2

/-- Claim C1 witness: on the width-spec `[(0, 0, 200)]` the final image
width is the maximal width field, 200. -/
theorem C1_width_amended_witness :
    ∃ s, initState [((0 : Int), (0 : Int), (200 : Int))] = some s ∧
      ∃ e ∈ [((0 : Int), (0 : Int), (200 : Int))], (getImage s).1.width = e.2.2 ∧
        ∀ e2 ∈ [((0 : Int), (0 : Int), (200 : Int))], e2.2.2 ≤ e.2.2 :=
  ⟨_, rfl, C1_width_amended rfl⟩

/-- Claim C2 (code bug): when an atomic draw of height 1001 arrives while
the chunk is still empty, `ensure_image` does print the capacity warning
and return Python `None` — but `render_text` then immediately calls
`draw.text` on that `None`, so the whole render aborts with an
`AttributeError` instead of skipping the draw and continuing. -/
theorem C2_capacity_crash :
    runM mTall cfgEx 2 ndP stEx = none ∧
    ∃ s1, ensureImage 1001 (newImageBlock stEx) = some (none, s1) ∧
      s1.events = [Event.message "Image block size too small!  Results will be cropped..."] :=
  ⟨rfl, _, rfl, rfl⟩

/-- Claim C3, counterexample: for `<a href="http://x">click<em>child</em></a>`
the registered link entry holds exactly the one box of the leading text
`click` (at x 0, width 35), even though the nested child's run `child`
is drawn while inside the anchor (at x 35, width 35) — its box
`(35, 0, 35, 10)` is absent from the entry. -/
theorem C3_links_counterexample :
    ∃ s', handleNode mEx cfgEx 2 ndA stEx = some s' ∧
      s'.links = [("http://x", some [((0 : Int), 0, 35, 10)])] ∧
      Event.drawText 35 0 "child" Font.italics (255, 255, 255, 255) ∈ s'.events ∧
      ((35 : Int), (0 : Int), (35 : Int), (10 : Int)) ∉
        [((0 : Int), (0 : Int), (35 : Int), (10 : Int))] :=
  ⟨_, rfl, rfl, by decide, by decide⟩

/-- Claim C3 (corrected): every anchor node with an `href` attribute
appends to the link map one entry whose bounding-box list is exactly the
boxes returned by rendering the anchor's own leading text — boxes of
runs rendered by nested inline children are not accumulated into it. -/
theorem C3_links_amended {m : Font → String → Int × Int} {cfg : Config} {f : Nat}
    {n : Node} {s s' : ExecState} {href : String}
    (ha : n.tag = "a") (hhref : n.attrib.lookup "href" = some href)
    (h : handleNode m cfg f n s = some s') :
    ∃ r, renderText m n.text cfg.link_color false none s = some r ∧
      ∃ t, s'.links = s.links ++ [(href, r.1)] ++ t := by
  unfold handleNode at h
  rw [handleNodeVia_a ha] at h
  unfold handleA at h
  rw [hhref] at h
  obtain ⟨r, hr, h⟩ := Option.bind_eq_some.mp h
  obtain ⟨s2, hs2, h⟩ := Option.bind_eq_some.mp h
  obtain ⟨r2, hr2, h⟩ := Option.map_eq_some'.mp h
  subst h
  refine ⟨r, hr, ?_⟩
  have h1 : r.2.links = s.links := renderText_links hr
  obtain ⟨t2, ht2⟩ := (handleChildren_preserves f _ _ _ hs2).links
  have h3 : r2.2.links = s2.links := renderText_links hr2
  refine ⟨t2, ?_⟩
  rw [h3, ht2]
  simp [h1]

/-- Claim C3 witness: the anchor example, where the entry's boxes are the
leading-text boxes. -/
theorem C3_links_amended_witness :
    ∃ s', handleNode mEx cfgEx 2 ndA stEx = some s' ∧
      ∃ r, renderText mEx ndA.text cfgEx.link_color false none stEx = some r ∧
        ∃ t, s'.links = stEx.links ++ [("http://x", r.1)] ++ t := by
  refine ⟨_, rfl, ?_⟩
  exact @C3_links_amended mEx cfgEx 2 ndA stEx _ "http://x" rfl rfl rfl

/-- Claim C4, counterexample: on the two-column spec
`[(0, 0, 100), (500, 10, 100)]`, a run of height 20 whose top is at
logical `y = 490 < 500` is drawn against the *second* column's bounds
(index 1, `start_x = 10`, `end_x = 110`), because `apply_width_spec`
advances as soon as the next breakpoint is `≤ y + h` (the run's bottom),
not `≤ y`. -/
theorem C4_column_counterexample :
    st490.y < 500 ∧
    st490.width_spec = [((0 : Int), 0, 100), (500, 10, 100)] ∧
    st490.width_spec_index = 0 ∧
    (applyWidthSpec 20 st490).width_spec_index = 1 ∧
    ∃ r, renderText m20 (some "x") cfgEx.color true none st490 = some r ∧
      Event.drawText 0 490 "x" Font.default cfgEx.color ∈ r.2.events ∧
      r.2.width_spec_index = 1 ∧ r.2.end_x = 110 :=
  ⟨by decide, rfl, rfl, rfl, _, rfl, by decide, rfl, rfl⟩

/-- Claim C4 (corrected): the active width-spec index never decreases
across any successful walk step, and on a two-entry width-spec with the
index on the first entry, one `apply_width_spec h` call advances to the
second column exactly when its breakpoint is `≤ y + h` (the pending
draw's bottom edge), so a run whose *extent* crosses the breakpoint
already uses the second column even though its top `y` is below it. -/
theorem C4_column_amended {m : Font → String → Int × Int} {cfg : Config} {f : Nat}
    {n : Node} {s s' : ExecState}
    (h : handleNode m cfg f n s = some s') :
    s.width_spec_index ≤ s'.width_spec_index ∧
    ∀ (hh y0 a0 w0 y1 a1 w1 : Int) (s0 : ExecState),
      s0.width_spec = [(y0, a0, w0), (y1, a1, w1)] → s0.width_spec_index = 0 →
      applyWidthSpec hh s0 =
        if y1 ≤ s0.y + hh then
          { s0 with width_spec_index := 1, start_x := a1, end_x := a1 + w1 }
        else s0 := by
  refine ⟨(handleNode_preserves h).idx, ?_⟩
  intro hh y0 a0 w0 y1 a1 w1 s0 hws hidx
  unfold applyWidthSpec
  rw [hws, hidx]
  norm_num [List.getD]

/-- Claim C4 witness: a concrete successful step, from which the index
monotonicity and the breakpoint rule hold. -/
theorem C4_column_amended_witness :
    ∃ s', handleNode mEx cfgEx 1 ndP stEx = some s' ∧
      (stEx.width_spec_index ≤ s'.width_spec_index ∧
       ∀ (hh y0 a0 w0 y1 a1 w1 : Int) (s0 : ExecState),
         s0.width_spec = [(y0, a0, w0), (y1, a1, w1)] → s0.width_spec_index = 0 →
         applyWidthSpec hh s0 =
           if y1 ≤ s0.y + hh then
             { s0 with width_spec_index := 1, start_x := a1, end_x := a1 + w1 }
           else s0) := by
  refine ⟨_, rfl, ?_⟩
  exact @C4_column_amended mEx cfgEx 1 ndP stEx _ rfl

/-- Claim C5 (confirmed): in normal (non-preformatted) word-wrap mode,
with the width-spec frozen on its last entry (so the column bounds are
constant for the call), every text fragment drawn by `render_text` either
fits the remaining column width at the x where it is drawn
(`x + measured width ≤ end_x`), or is a single whole space-separated
token of the input, drawn in full (the forced single-word case). -/
theorem C5_wrap_bound {m : Font → String → Int × Int} {t : String} {color : Color}
    {eb : Bool} {fontArg : Option Font} {s : ExecState}
    {r : Option (List Block) × ExecState}
    (hpre : s.in_pre = false)
    (hfz : ¬ s.width_spec_index + 1 < (s.width_spec.length : Int))
    (h : renderText m (some t) color eb fontArg s = some r) :
    ∀ e ∈ r.2.events.drop s.events.length,
      ∀ x y txt f2 c2, e = Event.drawText x y txt f2 c2 →
        x + (m f2 txt).1 ≤ s.end_x ∨ txt ∈ splitChar ' ' (compactWhitespace t) := by
  unfold renderText at h
  simp only at h
  split at h
  · rename_i hp
    rw [hpre] at hp
    exact absurd hp (by simp)
  · cases hw : wrapLoop m (fontArg.getD Font.default) color eb
        (splitChar ' ' (compactWhitespace t)) (splitChar ' ' (compactWhitespace t)).length.succ
        0 (if s.hasImage then some () else none) [] s with
    | none => rw [hw] at h; exact absurd h (by simp)
    | some p =>
        obtain ⟨bs, s2⟩ := p
        rw [hw] at h
        simp only [Option.some.injEq] at h
        subst h
        exact wrapLoop_frag_bound _ _ _ _ _ hw hfz

/-- Claim C5 witness: a two-word render on the single-entry spec. -/
theorem C5_wrap_bound_witness :
    ∃ r, renderText mEx (some "hello world") cfgEx.color true none stEx = some r ∧
      ∀ e ∈ r.2.events.drop stEx.events.length,
        ∀ x y txt f2 c2, e = Event.drawText x y txt f2 c2 →
          x + (mEx f2 txt).1 ≤ stEx.end_x ∨
          txt ∈ splitChar ' ' (compactWhitespace "hello world") := by
  refine ⟨_, rfl, ?_⟩
  exact C5_wrap_bound rfl (by decide) rfl

/-- Claim C6, counterexample: rendering `<div><h2>x</h2><hr/></div>` with a
990-pixel-tall heading leaves the chunk cursor at 1006 after the rule's
unchecked margin newlines, so the finalized chunk records a used height
of 1006, exceeding the fixed chunk capacity of 1000. -/
theorem C6_height_counterexample :
    ∃ s', runM m990 cfgEx 3 ndDoc stEx = some s' ∧
      (getImage s').2.images = [0, 1006] ∧
      (1006 : Int) > IMAGE_BLOCK_HEIGHT :=
  ⟨_, rfl, rfl, by decide⟩

/-- Claim C6 (corrected): the final image's height equals the sum of the
recorded used heights of all finalized chunks, and each chunk is pasted
at the running offset equal to the sum of the heights before it — but a
chunk's used height is not bounded by the chunk capacity (newlines
advance the cursor without a capacity check). -/
theorem C6_height_amended (s : ExecState) :
    (getImage s).1.height = (getImage s).2.images.foldl (fun a b => a + b) 0 ∧
    ∀ i : Nat, i < (getImage s).2.images.length →
      (getImage s).1.pastes.getD i (0, 0) =
        (((getImage s).2.images.take i).foldl (fun a b => a + b) 0,
          (getImage s).2.images.getD i 0) := by
  constructor
  · rfl
  · intro i hi
    have h := pasteOffsets_getD (saveImageBlock s).images 0 i hi
    simpa using h

/-- Claim C6 witness: the height/paste accounting on a concrete state. -/
theorem C6_height_amended_witness :
    (getImage stEx).1.height = (getImage stEx).2.images.foldl (fun a b => a + b) 0 ∧
    (getImage stEx).1.pastes.getD 0 (0, 0) =
      (((getImage stEx).2.images.take 0).foldl (fun a b => a + b) 0,
        (getImage stEx).2.images.getD 0 0) :=
  ⟨(C6_height_amended stEx).1, (C6_height_amended stEx).2 0 (by decide)⟩

/-- Claim C7 (confirmed): every container handler — blockquote, ordered
list, unordered list, preformatted block — restores the indent, the
list-type stack and the list-ordinal stack to their pre-entry values on
success; for blockquote and pre the subtree must be li-shielded (no bare
`li` outside a nested list, as in every parser-produced tree). -/
theorem C7_container_restores {m : Font → String → Int × Int} {cfg : Config} {f : Nat}
    {n : Node} {s s' : ExecState}
    (htag : n.tag = "blockquote" ∨ n.tag = "ol" ∨ n.tag = "ul" ∨ n.tag = "pre")
    (hsh : n.tag = "blockquote" ∨ n.tag = "pre" → ∀ c ∈ n.children, Shielded c)
    (h : handleNode m cfg f n s = some s') :
    s'.indent = s.indent ∧ s'.list_types = s.list_types ∧
    s'.list_item_nums = s.list_item_nums := by
  have hp := handleNode_preserves h
  refine ⟨hp.indent, hp.ltypes, ?_⟩
  unfold handleNode at h
  rcases htag with ht | ht | ht | ht
  · rw [handleNodeVia_blockquote ht] at h
    exact handleBlockquote_nums
      (fun s2 s2' h2 => (walk_nums_shielded f).1 _ _ _ (hsh (Or.inl ht)) h2) h
  · rw [handleNodeVia_ol ht] at h
    exact handleOl_nums (handleChildren_preserves f) h
  · rw [handleNodeVia_ul ht] at h
    exact handleUl_nums (handleChildren_preserves f) h
  · rw [handleNodeVia_pre ht] at h
    exact handlePre_nums
      (fun s2 s2' h2 => (walk_nums_shielded f).1 _ _ _ (hsh (Or.inr ht)) h2) h

/-- Claim C7 witness: a blockquote containing a two-item ordered list
restores all three values. -/
theorem C7_container_restores_witness :
    ∃ s', handleNode mEx cfgEx 3 ndBq stEx = some s' ∧
      (s'.indent = stEx.indent ∧ s'.list_types = stEx.list_types ∧
       s'.list_item_nums = stEx.list_item_nums) := by
  refine ⟨_, rfl, ?_⟩
  refine @C7_container_restores mEx cfgEx 3 ndBq stEx _ (Or.inl rfl) ?_ rfl
  intro _ c hc
  simp only [ndBq, Node.children, List.mem_singleton] at hc
  subst hc
  exact Shielded.list _ _ _ _ _ (Or.inl rfl)

/-- Claim C8 (confirmed): an ordered list whose items are `li` nodes (with
li-shielded bodies) draws the ordinals `1., 2., ...` — one per item, in
order, starting at 1 and increasing by exactly 1 — regardless of any
enclosing list's counter state, since `handle_ol` pushes a fresh counter
initialised to 1. -/
theorem C8_ordinals {m : Font → String → Int × Int} {cfg : Config} {f : Nat}
    {n : Node} {s s' : ExecState}
    (hol : n.tag = "ol")
    (hitems : ∀ c ∈ n.children, c.tag = "li" ∧ ∀ g ∈ c.children, Shielded g)
    (h : handleNode m cfg f n s = some s') :
    ∃ t sub, s'.events = s.events ++ t ∧ List.Sublist sub t ∧
      List.Forall₂ (fun i e => ∃ x y,
        e = Event.drawText x y (toString i ++ ".") Font.default cfg.color)
        (ordinalSeq 1 n.children.length) sub := by
  unfold handleNode at h
  rw [handleNodeVia_ol hol] at h
  unfold handleOl at h
  obtain ⟨s3, hs3, h⟩ := Option.map_eq_some'.mp h
  subst h
  cases f with
  | zero =>
      cases hcs : n.children with
      | nil =>
          rw [hcs] at hs3
          simp only [handleChildren, Option.some.injEq] at hs3
          subst hs3
          refine ⟨[], [], ?_, List.Sublist.refl _, ?_⟩
          · simp [newline]
          · simp [ordinalSeq]
      | cons c cs' =>
          rw [hcs] at hs3
          simp [handleChildren] at hs3
  | succ f' =>
      simp only [handleChildren] at hs3
      obtain ⟨hnum, t, sub, ht, hsub, hfa⟩ :=
        items_ordinals (handleChildren_preserves f') (walk_nums_shielded f').1
          n.children _ s3 1 s.list_item_nums s.list_types hitems rfl rfl hs3
      refine ⟨t, sub, ?_, hsub, hfa⟩
      simpa [newline] using ht

/-- Claim C8 witness: `<ol><li>one</li><li>two</li></ol>` draws `1.` and
`2.` in order. -/
theorem C8_ordinals_witness :
    ∃ s', handleNode mEx cfgEx 2 ndOl stEx = some s' ∧
      ∃ t sub, s'.events = stEx.events ++ t ∧ List.Sublist sub t ∧
        List.Forall₂ (fun i e => ∃ x y,
          e = Event.drawText x y (toString i ++ ".") Font.default cfgEx.color)
          (ordinalSeq 1 ndOl.children.length) sub := by
  refine ⟨_, rfl, ?_⟩
  refine @C8_ordinals mEx cfgEx 2 ndOl stEx _ rfl ?_ rfl
  intro c hc
  simp only [ndOl, Node.children, List.mem_cons, List.not_mem_nil, or_false] at hc
  rcases hc with rfl | rfl
  · exact ⟨rfl, by simp [ndLi1, Node.children]⟩
  · exact ⟨rfl, by simp [ndLi2, Node.children]⟩

/-- Claim C9 (confirmed): a heading node (`h1`–`h6`) renders exactly as the
same node with its tail text and all its children removed: `handle_h`
touches only the node's own leading text, so nested inline markup and
tail text are dropped from the output. -/
theorem C9_heading_ignores_children {m : Font → String → Int × Int} {cfg : Config}
    {f : Nat} {n : Node}
    (ht : n.tag = "h1" ∨ n.tag = "h2" ∨ n.tag = "h3" ∨ n.tag = "h4" ∨
      n.tag = "h5" ∨ n.tag = "h6")
    (s : ExecState) :
    handleNode m cfg f n s =
      handleNode m cfg f (Node.mk n.tag n.text none n.attrib []) s := by
  unfold handleNode
  rw [handleNodeVia_h ht]
  rw [handleNodeVia_h (show (Node.mk n.tag n.text none n.attrib []).tag = "h1" ∨
    (Node.mk n.tag n.text none n.attrib []).tag = "h2" ∨
    (Node.mk n.tag n.text none n.attrib []).tag = "h3" ∨
    (Node.mk n.tag n.text none n.attrib []).tag = "h4" ∨
    (Node.mk n.tag n.text none n.attrib []).tag = "h5" ∨
    (Node.mk n.tag n.text none n.attrib []).tag = "h6" from ht)]
  rfl

/-- Claim C9 witness: `<h2>Title</h2>` with tail text and a nested child
renders identically to the bare heading. -/
theorem C9_heading_ignores_children_witness :
    handleNode mEx cfgEx 1 ndH2 stEx =
      handleNode mEx cfgEx 1 (Node.mk ndH2.tag ndH2.text none ndH2.attrib []) stEx :=
  @C9_heading_ignores_children mEx cfgEx 1 ndH2 (Or.inr (Or.inl rfl)) stEx

/-- Claim C10 (confirmed): construction sorts the caller-supplied
width-spec list in place: after `__init__` returns, the caller's own
list object holds a permutation of its old contents, sorted ascending
lexicographically over the whole `(yOffset, xOffset, width)` tuples, and
it is that same sequence the renderer uses as its width-spec. -/
theorem C10_sort_in_place (ws : List (Int × Int × Int)) :
    List.Perm (callerWidthSpecAfterInit ws) ws ∧
    List.Sorted wsLe (callerWidthSpecAfterInit ws) ∧
    ∀ s, initState ws = some s → s.width_spec = callerWidthSpecAfterInit ws := by
  refine ⟨List.perm_insertionSort wsLe ws, List.sorted_insertionSort wsLe ws, ?_⟩
  intro s h
  unfold initState at h
  cases hmx : maxByThird ws with
  | none => rw [hmx] at h; exact absurd h (by simp)
  | some mx =>
      rw [hmx] at h
      simp only [Option.some.injEq] at h
      subst h
      rw [(applyWidthSpec_preserves 0 _).wspec]
      rfl

/-- Claim C10 witness: the caller's list `[(5,0,10),(0,0,3)]` is mutated
into its sorted permutation `[(0,0,3),(5,0,10)]`, which is also the
renderer's width-spec. -/
theorem C10_sort_in_place_witness :
    List.Perm (callerWidthSpecAfterInit [((5 : Int), (0 : Int), (10 : Int)), (0, 0, 3)])
      [((5 : Int), (0 : Int), (10 : Int)), (0, 0, 3)] ∧
    List.Sorted wsLe (callerWidthSpecAfterInit [((5 : Int), (0 : Int), (10 : Int)), (0, 0, 3)]) ∧
    ∃ s, initState [((5 : Int), (0 : Int), (10 : Int)), (0, 0, 3)] = some s ∧
      s.width_spec = callerWidthSpecAfterInit [((5 : Int), (0 : Int), (10 : Int)), (0, 0, 3)] ∧
      callerWidthSpecAfterInit [((5 : Int), (0 : Int), (10 : Int)), (0, 0, 3)] ≠
        [((5 : Int), (0 : Int), (10 : Int)), (0, 0, 3)] := by
  obtain ⟨h1, h2, h3⟩ := C10_sort_in_place [((5 : Int), (0 : Int), (10 : Int)), (0, 0, 3)]
  exact ⟨h1, h2, _, rfl, h3 _ rfl, by decide⟩
